import Mathlib

/-!
smsh (small shell, version 5): variable store, substitution engine, control flow,
builtins and executor.

A shallow embedding of `varlib.c`, `controlflow.c`, `builtin.c` and `process.c`.

Conventions of the embedding:

* a C string (`char *` to a NUL-terminated buffer) is the list of the characters
  that stand before its terminator (`CStr`); pointer arguments are non-NULL;
* a pointer into a string is the string together with an offset; offsets that
  the source computes by pointer arithmetic and that can leave the buffer are
  integers (`Int`);
* the static array `tab[MAXVARS]` is a function from indices to entries, of which
  only the indices below `MAXVARS` are ever read or written;
* `emalloc`/`malloc` succeed;
* `long` has 64 bits and `int` 32; `>>` on a negative `int` is the arithmetic
  shift;
* what comes from outside the program (`chdir`, `fork`/`wait`, `execvp`, the input
  line of `read`) is a parameter (`Externals`); so is the outcome of the undefined
  call `isdigit(cmd)` of `is_assign_var`, which may return or kill the process.
-/

namespace Smsh

/-- A C string: the characters before the terminating NUL. -/
abbrev CStr := List Char

/-! ## varlib.c : the table -/

/-- `#define MAXVARS 200` -/
def MAXVARS : Nat := 200

/-- `struct var`: `str` is the `name=val` string (`none` is the NULL pointer of a
free slot), `global` the export flag (only ever 0 or 1 in the source). -/
structure var where
  str : Option CStr
  global : Bool
deriving DecidableEq, Repr

/-- `static struct var tab[MAXVARS]`, as a function of the index. -/
abbrev Table := Nat → var

/-- A slot of a zero-initialised static array. -/
def blank : var := { str := none, global := false }

/-- The table before anything is stored: every slot NULL. -/
def emptyTable : Table := fun _ => blank

/-- Assignment to the slot `tab[i]`. -/
def setSlot (tab : Table) (i : Nat) (v : var) : Table :=
  fun j => if j = i then v else tab j

/-- `strncmp(s, name, n) == 0`: the first `n` characters agree, the comparison
ending early when both strings end together. -/
def strncmp_eq : CStr → CStr → Nat → Bool
  | _, _, 0 => true
  | [], [], _ + 1 => true
  | [], _ :: _, _ + 1 => false
  | _ :: _, [], _ + 1 => false
  | c :: s, d :: t, n + 1 => if c = d then strncmp_eq s t n else false

/-- The test of `find_item`: `strncmp(s,name,len) == 0 && s[len] == '='` with
`len = strlen(name)`. -/
def entry_matches (s name : CStr) : Bool :=
  strncmp_eq s name name.length && (s[name.length]? == some '=')

/-- The `for` loop of `find_item`, entered at index `i` with `n` iterations left
before `i` reaches `MAXVARS`.  The result is `(i, true)` when the loop returns
`&tab[i]` from its body and `(i, false)` when it ends with index `i` (at a NULL
slot or at `MAXVARS`). -/
def find_item_scan (tab : Table) (name : CStr) : Nat → Nat → Nat × Bool
  | 0, i => (i, false)
  | n + 1, i =>
    match (tab i).str with
    | none => (i, false)
    | some s =>
      if entry_matches s name then (i, true)
      else find_item_scan tab name n (i + 1)

/-- `find_item(name, first_blank)`: the index of the slot returned, `none` for
NULL. -/
def find_item (tab : Table) (name : CStr) (first_blank : Bool) : Option Nat :=
  match find_item_scan tab name MAXVARS 0 with
  | (i, true) => some i
  | (i, false) => if decide (i < MAXVARS) && first_blank then some i else none

/-- `new_string(name, val)`: the string `name=val`. -/
def new_string (name val : CStr) : CStr := name ++ '=' :: val

/-- `VLstore(name, val)`: return value and table afterwards. -/
def VLstore (tab : Table) (name val : CStr) : Int × Table :=
  match find_item tab name true with
  | some i => (0, setSlot tab i { str := some (new_string name val), global := (tab i).global })
  | none => (1, tab)

/-- `VLlookup(name)`: `itemp->str + 1 + strlen(name)` or `""`. -/
def VLlookup (tab : Table) (name : CStr) : CStr :=
  match find_item tab name false with
  | some i =>
    match (tab i).str with
    | some s => s.drop (1 + name.length)
    | none => []
  | none => []

/-- `VLexport(name)` run with at most `fuel` activations of the function (the
call itself and its nested calls); `none` when that many do not suffice. -/
def VLexport_fuel : Nat → Table → CStr → Option (Int × Table)
  | 0, _, _ => none
  | fuel + 1, tab, name =>
    match find_item tab name false with
    | some i => some (0, setSlot tab i { str := (tab i).str, global := true })
    | none =>
      let r := VLstore tab name []
      if r.1 = 0 then VLexport_fuel fuel r.2 name
      else some (1, r.2)

/-- `VLexport(name)`: return value and table afterwards.  Two activations always
suffice (`VLexport_fuel_two`), so the default is never taken. -/
def VLexport (tab : Table) (name : CStr) : Int × Table :=
  (VLexport_fuel 2 tab name).getD (1, tab)

/-- The first loop of `VLtable2environ`, entered at index `i` with `n` iterations
left: the number of slots with `global == 1` before the first NULL slot. -/
def count_globals (tab : Table) : Nat → Nat → Nat
  | 0, _ => 0
  | n + 1, i =>
    match (tab i).str with
    | none => 0
    | some _ => (if (tab i).global then 1 else 0) + count_globals tab n (i + 1)

/-- The second loop of `VLtable2environ`, entered at index `i` with `n`
iterations left: the pointers written to `envtab[j++]`. -/
def load_globals (tab : Table) : Nat → Nat → List CStr
  | 0, _ => []
  | n + 1, i =>
    match (tab i).str with
    | none => []
    | some s =>
      if (tab i).global then s :: load_globals tab n (i + 1)
      else load_globals tab n (i + 1)

/-- `VLtable2environ()`: the array `envtab` as it is returned, `none` being its
closing NULL pointer.  It is allocated for `count_globals + 1` pointers. -/
def VLtable2environ (tab : Table) : List (Option CStr) :=
  (load_globals tab MAXVARS 0).map some ++ [none]

/-- The strings a child process gets as its environment: `envtab` up to its NULL. -/
def environ_of (tab : Table) : List CStr := load_globals tab MAXVARS 0

/-! ## varlib.c : notions used to state properties of the table -/

/-- No occupied slot follows a free one: the shape every table has that is filled
from slot 0 on and never deleted from. -/
def contiguous (tab : Table) : Prop :=
  ∀ i j, i ≤ j → j < MAXVARS → (tab i).str = none → (tab j).str = none

/-- Every entry is a string of the form `name=value`: it contains an `=`. -/
def entries_have_eq (tab : Table) : Prop :=
  ∀ i s, i < MAXVARS → (tab i).str = some s → '=' ∈ s

/-- The name of an entry: the text before the first `=` of its string. -/
def entry_name (s : CStr) : CStr := s.takeWhile (fun c => c != '=')

/-- The entries of the table have pairwise distinct names. -/
def distinct_names (tab : Table) : Prop :=
  ∀ i j s t, i < MAXVARS → j < MAXVARS → (tab i).str = some s → (tab j).str = some t →
    entry_name s = entry_name t → i = j

/-- The number of occupied slots among the first `n`. -/
def entry_count (tab : Table) : Nat → Nat
  | 0 => 0
  | n + 1 => entry_count tab n + (if (tab n).str.isSome then 1 else 0)

/-- The strings of the exported entries, in table order: follows the words of the
specification of `materializeEnvironment`, over all `MAXVARS` slots. -/
def exported_strings (tab : Table) : List CStr :=
  (List.range MAXVARS).filterMap (fun i => if (tab i).global then (tab i).str else none)

/-- A call of the store interface that can bind a name: `VLstore(name, val)` or
`VLexport(name)`. -/
inductive StoreCall where
  | vlstore (name val : CStr)
  | vlexport (name : CStr)
deriving DecidableEq, Repr

/-- The name argument of a call. -/
def StoreCall.name : StoreCall → CStr
  | StoreCall.vlstore name _ => name
  | StoreCall.vlexport name => name

/-- The table after a call (its return value dropped). -/
def StoreCall.run (tab : Table) : StoreCall → Table
  | StoreCall.vlstore name val => (VLstore tab name val).2
  | StoreCall.vlexport name => (VLexport tab name).2

/-- The table after a sequence of calls, made in order. -/
def run_calls (tab : Table) (calls : List StoreCall) : Table :=
  calls.foldl StoreCall.run tab

/-! ## varlib.c : the substitution engine -/

/-- `escape_char(cmdline, substr)`, `substr` being the offset of the backslash in
`*cmdline`: the new `*cmdline` and the offset in it of the returned pointer
`new_string + len`. -/
def escape_char (cmdline : CStr) (substr : Nat) : CStr × Int :=
  let head := cmdline.take substr
  let len := head.length
  (head ++ cmdline.drop (substr + 1), (len : Int))

/-- `is_valid_bash_variable(ptr)`, as a function of `*ptr`. -/
def is_valid_bash_variable (c : Char) : Bool :=
  c.isAlphanum || c == '_'

/-- `is_bash_special_char(ptr)`, as a function of `*ptr`. -/
def is_bash_special_char (c : Char) : Bool :=
  c.isDigit || c == '$' || c == '?'

/-- The number of characters `ptr` advances over in `substitute`, `after` being
the string at `substr + 1`: one for a special character, otherwise the run of
valid variable characters. -/
def name_span (after : CStr) : Nat :=
  match after with
  | [] => 0
  | c :: _ =>
    if is_bash_special_char c then 1
    else (after.takeWhile is_valid_bash_variable).length

/-- The `lookup_value` of `substitute` for the name between `substr + 1` and
`ptr`: `VLlookup(substr + 1)`, replaced by `"$"` when
`*(substr + 1) == 0 && *lookup_value == 0` (both strings empty). -/
def replacement (tab : Table) (name : CStr) : CStr :=
  let lookup_value := VLlookup tab name
  if name.isEmpty && lookup_value.isEmpty then ['$'] else lookup_value

/-- `substitute(cmdline, substr)`, `substr` being the offset of the `$` in
`*cmdline`: the new `*cmdline` and the offset in it of the returned pointer
`new_string + len + strlen(lookup_value) - 1`. -/
def substitute (tab : Table) (cmdline : CStr) (substr : Nat) : CStr × Int :=
  let head := cmdline.take substr
  let len := head.length
  let after := cmdline.drop (substr + 1)
  let n := name_span after
  let name := after.take n
  let ptr := after.drop n
  let lookup_value := replacement tab name
  (head ++ lookup_value ++ ptr, (len : Int) + (lookup_value.length : Int) - 1)

/-- How the scan of a line ends. -/
inductive Scan where
  /-- The loop saw the terminator and returned `*cmdline`. -/
  | done (line : CStr)
  /-- The loop read `*substr` with `substr` outside the buffer. -/
  | overrun (line : CStr) (substr : Int)
  /-- The iteration bound of the embedding was reached. -/
  | unfinished
deriving DecidableEq, Repr

/-- The `while` loop of `substitute_variables` with `*cmdline = cmdline` and
`substr` at offset `substr`, run for at most `fuel` iterations. -/
def scan_loop (tab : Table) : Nat → CStr → Int → Scan
  | 0, _, _ => Scan.unfinished
  | fuel + 1, cmdline, substr =>
    if substr < 0 ∨ (cmdline.length : Int) < substr then Scan.overrun cmdline substr
    else
      match cmdline[substr.toNat]? with
      | none => Scan.done cmdline
      | some c =>
        if c = '\\' then
          let r := escape_char cmdline substr.toNat
          scan_loop tab fuel r.1 (r.2 + 1)
        else if c = '$' then
          let r := substitute tab cmdline substr.toNat
          scan_loop tab fuel r.1 (r.2 + 1)
        else scan_loop tab fuel cmdline (substr + 1)

/-- `substitute_variables(&cmdline)`.  Every iteration brings `substr` closer to
the terminator, so `strlen(cmdline) + 1` iterations are enough. -/
def substitute_variables (tab : Table) (cmdline : CStr) : Scan :=
  scan_loop tab (cmdline.length + 1) cmdline 0

/-- The result of a scan with `pre` put in front of the returned line. -/
def Scan.prepend (pre : CStr) : Scan → Scan
  | Scan.done line => Scan.done (pre ++ line)
  | Scan.overrun line substr => Scan.overrun (pre ++ line) ((pre.length : Int) + substr)
  | Scan.unfinished => Scan.unfinished

/-! ## controlflow.c and process.c -/

/-- `enum states` -/
inductive states where
  | NEUTRAL
  | WANT_THEN
  | THEN_BLOCK
  | WANT_ELSE
  | ELSE_BLOCK
deriving DecidableEq, Repr

/-- `enum results` -/
inductive results where
  | SUCCESS
  | FAIL
deriving DecidableEq, Repr

/-- What a call comes to: it returns a value, or the shell process ends inside it
by `exit(status)` (`status` being the argument of `exit`), or the shell process is
killed inside it by a signal, as on a read of memory that is not mapped. -/
inductive Outcome (α : Type) where
  | returned (a : α)
  | exited (status : Int)
  | killed
deriving DecidableEq, Repr

/-- The state a command line is processed in: the statics `if_state`, `if_result`
and `last_stat` of controlflow.c; `world` stands for everything `do_command` works
on (variable table, file system, child processes); `calls` records, in order, the
argument vectors that `process` has handed to `do_command`. -/
structure Shell (W : Type) where
  if_state : states
  if_result : results
  last_stat : Int
  world : W
  calls : List (List CStr)
deriving DecidableEq, Repr

/-- The statics as initialised: `if_state = NEUTRAL`, `if_result = SUCCESS`,
`last_stat = 0`. -/
def Shell.init {W : Type} (w : W) : Shell W :=
  { if_state := states.NEUTRAL, if_result := results.SUCCESS, last_stat := 0,
    world := w, calls := [] }

/-- `syn_err(msg)`: resets `if_state` and returns -1 (the message goes to stderr). -/
def syn_err {W : Type} (s : Shell W) : Int × Shell W :=
  (-1, { s with if_state := states.NEUTRAL })

/-- `ok_to_execute()`: return value and state afterwards. -/
def ok_to_execute {W : Type} (s : Shell W) : Int × Shell W :=
  if s.if_state = states.WANT_THEN then
    (0, (syn_err s).2)
  else if s.if_state = states.THEN_BLOCK ∧ s.if_result = results.SUCCESS then
    (1, s)
  else if s.if_state = states.THEN_BLOCK ∧ s.if_result = results.FAIL then
    (0, s)
  else if s.if_state = states.ELSE_BLOCK ∧ s.if_result = results.SUCCESS then
    (0, s)
  else if s.if_state = states.ELSE_BLOCK ∧ s.if_result = results.FAIL then
    (1, s)
  else
    (1, s)

/-- `is_control_command(s)` -/
def is_control_command (s : CStr) : Bool :=
  s == "if".toList || s == "then".toList || s == "else".toList || s == "fi".toList

/-- `do_control_command(args)` with `cmd = args[0]`; `process_rest` is the call
`process(args+1)` of the `if` branch.  A word that is no keyword ends the shell
through `fatal(..., 2)`. -/
def do_control_command {W : Type} (process_rest : Shell W → Outcome (Int × Shell W))
    (cmd : CStr) (s : Shell W) : Outcome (Int × Shell W) :=
  if cmd = "if".toList then
    if s.if_state ≠ states.NEUTRAL then
      Outcome.returned (syn_err s)
    else
      match process_rest s with
      | Outcome.exited n => Outcome.exited n
      | Outcome.killed => Outcome.killed
      | Outcome.returned (st, s1) =>
        Outcome.returned (0,
          { s1 with
            last_stat := st
            if_result := if st = 0 then results.SUCCESS else results.FAIL
            if_state := states.WANT_THEN })
  else if cmd = "then".toList then
    if s.if_state ≠ states.WANT_THEN then
      Outcome.returned (syn_err s)
    else
      Outcome.returned (0, { s with if_state := states.THEN_BLOCK })
  else if cmd = "else".toList then
    let s1 :=
      if s.if_state = states.NEUTRAL ∨ s.if_state = states.WANT_THEN ∨
          s.if_state = states.ELSE_BLOCK then
        (syn_err s).2
      else s
    Outcome.returned (0, { s1 with if_state := states.ELSE_BLOCK })
  else if cmd = "fi".toList then
    if s.if_state = states.NEUTRAL ∨ s.if_state = states.WANT_THEN then
      Outcome.returned (syn_err s)
    else
      Outcome.returned (0, { s with if_state := states.NEUTRAL })
  else
    Outcome.exited 2

/-- `process(args)`.  `do_command` is a parameter: given the argument vector and
the world it returns a status and the world afterwards, or ends the shell. -/
def process {W : Type} (do_command : List CStr → W → Outcome (Int × W)) :
    List CStr → Shell W → Outcome (Int × Shell W)
  | [], s => Outcome.returned (0, s)
  | cmd :: rest, s =>
    if is_control_command cmd then
      do_control_command (process do_command rest) cmd s
    else
      let ok := ok_to_execute s
      if ok.1 ≠ 0 then
        match do_command (cmd :: rest) ok.2.world with
        | Outcome.exited n => Outcome.exited n
        | Outcome.killed => Outcome.killed
        | Outcome.returned (rv, w) =>
          Outcome.returned (rv,
            { ok.2 with world := w, calls := ok.2.calls ++ [cmd :: rest] })
      else
        Outcome.returned (0, ok.2)

/-- Successive calls of `process`, one per command line, as the read-eval loop
makes them; the state after the last line. -/
def process_lines {W : Type} (do_command : List CStr → W → Outcome (Int × W)) :
    List (List CStr) → Shell W → Outcome (Shell W)
  | [], s => Outcome.returned s
  | args :: more, s =>
    match process do_command args s with
    | Outcome.exited n => Outcome.exited n
    | Outcome.killed => Outcome.killed
    | Outcome.returned r => process_lines do_command more r.2

/-! ## builtin.c -/

/-- The loop of `okname`, `first` telling whether `cp == str`: `false` when the
loop returns 0 from its body, `true` when it runs to the terminator. -/
def okname_scan : Bool → CStr → Bool
  | _, [] => true
  | first, c :: cs =>
    if (c.isDigit && first) || !(c.isAlphanum || c == '_') then false
    else okname_scan false cs

/-- `okname(str)`: 0 from inside the loop, else `cp != str`. -/
def okname (str : CStr) : Int :=
  if okname_scan true str then (if str ≠ [] then 1 else 0) else 0

/-- A character of the class `[A-Za-z_]`: follows the words of the specification. -/
def identifier_start (c : Char) : Bool :=
  (decide ('A' ≤ c) && decide (c ≤ 'Z')) || (decide ('a' ≤ c) && decide (c ≤ 'z')) || c == '_'

/-- A character of the class `[A-Za-z0-9_]`: follows the words of the
specification. -/
def identifier_char (c : Char) : Bool :=
  identifier_start c || (decide ('0' ≤ c) && decide (c ≤ '9'))

/-- The string matches `[A-Za-z_][A-Za-z0-9_]*`: it is not empty, its first
character is a letter or an underscore, every other one a letter, a digit or an
underscore.  Follows the words of the specification. -/
def matches_identifier : CStr → Bool
  | [] => false
  | c :: cs => identifier_start c && cs.all identifier_char

/-- `assign(str)` for a string that holds an `=`: the name is the text before the
first `=`, the value the text after it. -/
def assign (tab : Table) (str : CStr) : Int × Table :=
  let name := str.takeWhile (fun c => c != '=')
  let val := (str.dropWhile (fun c => c != '=')).drop 1
  if okname name ≠ 0 then VLstore tab name val else (-1, tab)

/-- What the builtins and `execute` get from outside the program.

* `isdigit_cmd`: what the call `isdigit(cmd)` of `is_assign_var` comes to.  There
  `isdigit` is applied to the pointer `cmd` itself (not to `*cmd`), a value
  outside its domain, so the call is undefined: `none` when the read of the
  character table at the truncated address faults and the process is killed (what
  the program built against glibc does), `some b` when the call returns, with
  `b` telling whether the value is non-zero;
* `chdir`: the return value of `chdir(path)`, 0 or -1;
* `next_cmd`: the line `next_cmd("", stdin)` reads, `none` at end of input;
* `exec_end`: the status the process ends with in `exec_exec(args)`: that of the
  program run in place of the shell, or 1 when `execvp` fails;
* `wait_status`: the value of `child_info` when `execute` returns, for the given
  `environ` and `argv`: the raw wait status, or -1 when `fork` or `wait` fails. -/
structure Externals where
  isdigit_cmd : Option Bool
  chdir : CStr → Int
  next_cmd : Option CStr
  exec_end : List CStr → Int
  wait_status : List CStr → List CStr → Int

/-- `is_assign_var(cmd, resultp)`: return value, `*resultp` and table afterwards,
or the process killed in `isdigit(cmd)`, which is called for every `cmd` that
holds an `=`.  The `for` loop returns 0 at a character with
`!(isalnum(c) || c != '_')`. -/
def is_assign_var (isdigit_cmd : Option Bool) (tab : Table) (cmd : CStr) (resultp : Int) :
    Outcome (Int × Int × Table) :=
  if cmd.contains '=' then
    match isdigit_cmd with
    | none => Outcome.killed
    | some digit =>
      if digit then Outcome.returned (0, resultp, tab)
      else if (cmd.takeWhile (fun c => c != '=')).any
          (fun c => !(c.isAlphanum || c != '_')) then
        Outcome.returned (0, resultp, tab)
      else
        let r := assign tab cmd
        if r.1 ≠ -1 then Outcome.returned (1, r.1, r.2) else Outcome.returned (0, r.1, r.2)
  else Outcome.returned (0, resultp, tab)

/-- `is_list_vars(cmd, resultp)`: return value and `*resultp` (the listing goes to
stdout). -/
def is_list_vars (cmd : CStr) (resultp : Int) : Int × Int :=
  if cmd = "set".toList then (1, 0) else (0, resultp)

/-- `is_export(args, resultp)` with `args = cmd :: rest`. -/
def is_export (tab : Table) (cmd : CStr) (rest : List CStr) (resultp : Int) :
    Int × Int × Table :=
  if cmd = "export".toList then
    match rest with
    | name :: _ =>
      if okname name ≠ 0 then
        let r := VLexport tab name
        (1, r.1, r.2)
      else (1, 1, tab)
    | [] => (1, 1, tab)
  else (0, resultp, tab)

/-- `exec_cd(args)`: `exit(1)` when `chdir` fails. -/
def exec_cd (ext : Externals) (tab : Table) (args : List CStr) : Outcome Int :=
  let rv :=
    match args with
    | [] => ext.chdir (VLlookup tab "HOME".toList)
    | dir :: _ => ext.chdir dir
  if rv = -1 then Outcome.exited 1 else Outcome.returned rv

/-- `is_cd(args, resultp)` with `args = cmd :: rest`. -/
def is_cd (ext : Externals) (tab : Table) (cmd : CStr) (rest : List CStr) (resultp : Int) :
    Outcome (Int × Int) :=
  if cmd ≠ "cd".toList then Outcome.returned (0, resultp)
  else
    match exec_cd ext tab rest with
    | Outcome.exited n => Outcome.exited n
    | Outcome.killed => Outcome.killed
    | Outcome.returned rv => Outcome.returned (1, rv)

/-- `isspace` in the C locale. -/
def isspace (c : Char) : Bool :=
  c == ' ' || c == '\t' || c == '\n' || c == Char.ofNat 11 || c == Char.ofNat 12 || c == '\r'

/-- `LONG_MAX` of a 64-bit `long`. -/
def LONG_MAX : Int := 2 ^ 63 - 1

/-- `LONG_MIN` of a 64-bit `long`. -/
def LONG_MIN : Int := -(2 ^ 63)

/-- The number a string of decimal digits denotes. -/
def digits_value (ds : CStr) : Nat :=
  ds.foldl (fun acc d => 10 * acc + (d.toNat - '0'.toNat)) 0

/-- The optional sign `strtol` takes: whether it is `-`, and the string behind it. -/
def strtol_sign (t : CStr) : Bool × CStr :=
  match t with
  | '-' :: u => (true, u)
  | '+' :: u => (false, u)
  | _ => (false, t)

/-- `strtol(nptr, &endptr, 10)`: the value returned and the string at `endptr`.
White space is skipped, one sign is taken, then the decimal digits; without a
digit nothing is consumed; the value is clamped to the range of `long`. -/
def strtol (nptr : CStr) : Int × CStr :=
  let t := nptr.dropWhile isspace
  let signed := strtol_sign t
  let ds := signed.2.takeWhile Char.isDigit
  if ds.isEmpty then (0, nptr)
  else
    let v : Int := if signed.1 then -(digits_value ds : Int) else (digits_value ds : Int)
    (max LONG_MIN (min LONG_MAX v), signed.2.dropWhile Char.isDigit)

/-- The conversion of a `long` to `int` in `exit_status = strtol(...)`: the value
modulo 2^32 in the range of a 32-bit `int`. -/
def long_to_int (v : Int) : Int :=
  (v + 2 ^ 31) % 2 ^ 32 - 2 ^ 31

/-- The argument is purely numeric: a non-empty string of decimal digits.  Follows
the words of the specification. -/
def purely_numeric (arg : CStr) : Bool :=
  !arg.isEmpty && arg.all Char.isDigit

/-- The arguments of `exit` that are read as a number to the end: the empty
string, or optional white space, an optional sign `+` or `-`, and then a non-empty
string of decimal digits. -/
def exit_argument_ok (arg : CStr) : Bool :=
  arg.isEmpty || purely_numeric (strtol_sign (arg.dropWhile isspace)).2

/-- The number such an argument denotes, with its sign (0 for the empty string). -/
def exit_argument_value (arg : CStr) : Int :=
  let signed := strtol_sign (arg.dropWhile isspace)
  if signed.1 then -(digits_value signed.2 : Int) else (digits_value signed.2 : Int)

/-- The exit status the environment sees after `exit(n)`: the low 8 bits of `n`. -/
def seen_status (n : Int) : Int := n % 256

/-- `exec_exit(args)`: `exited n` is the call `exit(n)`. -/
def exec_exit (args : List CStr) : Outcome Int :=
  match args with
  | _ :: _ :: _ => Outcome.returned (-1)
  | [arg] =>
    let r := strtol arg
    if r.2.length > 0 then Outcome.returned (-1)
    else Outcome.exited (long_to_int r.1)
  | [] => Outcome.exited 0

/-- `is_exit(args, resultp)` with `args = cmd :: rest`. -/
def is_exit (cmd : CStr) (rest : List CStr) (resultp : Int) : Outcome (Int × Int) :=
  if cmd ≠ "exit".toList then Outcome.returned (0, resultp)
  else
    match exec_exit rest with
    | Outcome.exited n => Outcome.exited n
    | Outcome.killed => Outcome.killed
    | Outcome.returned rv => Outcome.returned (1, rv)

/-- `exec_read(args)`: return value and table afterwards.  At end of input
`next_cmd` gives NULL and `VLstore(key, NULL)` stores `key=` (through a
`new_string` buffer one byte short). -/
def exec_read (ext : Externals) (tab : Table) (args : List CStr) : Int × Table :=
  let key :=
    match args with
    | [] => "REPLY".toList
    | k :: _ => k
  (1, (VLstore tab key (ext.next_cmd.getD [])).2)

/-- `is_read(args, resultp)` with `args = cmd :: rest`. -/
def is_read (ext : Externals) (tab : Table) (cmd : CStr) (rest : List CStr) (resultp : Int) :
    Int × Int × Table :=
  if cmd ≠ "read".toList then (0, resultp, tab)
  else
    let r := exec_read ext tab rest
    (1, r.1, r.2)

/-- `is_exec(args, resultp)` with `args = cmd :: rest`: `exec_exec` never returns. -/
def is_exec (ext : Externals) (cmd : CStr) (rest : List CStr) (resultp : Int) :
    Outcome (Int × Int) :=
  if cmd ≠ "exec".toList then Outcome.returned (0, resultp)
  else Outcome.exited (ext.exec_end (cmd :: rest))

/-- `is_builtin(args, resultp)` with `args = cmd :: rest`: return value, `*resultp`
and table afterwards. -/
def is_builtin (ext : Externals) (tab : Table) (cmd : CStr) (rest : List CStr)
    (resultp : Int) : Outcome (Int × Int × Table) :=
  match is_assign_var ext.isdigit_cmd tab cmd resultp with
  | Outcome.exited n => Outcome.exited n
  | Outcome.killed => Outcome.killed
  | Outcome.returned a =>
    if a.1 ≠ 0 then Outcome.returned (1, a.2.1, a.2.2)
    else
      let l := is_list_vars cmd a.2.1
      if l.1 ≠ 0 then Outcome.returned (1, l.2, a.2.2)
      else
        let e := is_export a.2.2 cmd rest l.2
        if e.1 ≠ 0 then Outcome.returned (1, e.2.1, e.2.2)
        else
          match is_cd ext e.2.2 cmd rest e.2.1 with
          | Outcome.exited n => Outcome.exited n
          | Outcome.killed => Outcome.killed
          | Outcome.returned c =>
            if c.1 ≠ 0 then Outcome.returned (1, c.2, e.2.2)
            else
              match is_exit cmd rest c.2 with
              | Outcome.exited n => Outcome.exited n
              | Outcome.killed => Outcome.killed
              | Outcome.returned x =>
                if x.1 ≠ 0 then Outcome.returned (1, x.2, e.2.2)
                else
                  let r := is_read ext e.2.2 cmd rest x.2
                  if r.1 ≠ 0 then Outcome.returned (1, r.2.1, r.2.2)
                  else
                    match is_exec ext cmd rest r.2.1 with
                    | Outcome.exited n => Outcome.exited n
                    | Outcome.killed => Outcome.killed
                    | Outcome.returned y =>
                      if y.1 ≠ 0 then Outcome.returned (1, y.2, r.2.2)
                      else Outcome.returned (0, y.2, r.2.2)

/-! ## process.c : the executor -/

/-- `execute(argv)`: 0 for an empty vector, else `child_info`; the child runs with
`environ = VLtable2environ()`. -/
def execute (ext : Externals) (tab : Table) (argv : List CStr) : Int :=
  if argv = [] then 0 else ext.wait_status (environ_of tab) argv

/-- `do_command(args)` with `args = cmd :: rest`; `rv` is the value the local `rv`
happens to hold before `is_builtin` is called.  The status returned for a command
that is no builtin is `rv >> 8`. -/
def do_command (ext : Externals) (tab : Table) (cmd : CStr) (rest : List CStr) (rv : Int) :
    Outcome (Int × Table) :=
  match is_builtin ext tab cmd rest rv with
  | Outcome.exited n => Outcome.exited n
  | Outcome.killed => Outcome.killed
  | Outcome.returned b =>
    if b.1 ≠ 0 then Outcome.returned (b.2.1, b.2.2)
    else Outcome.returned ((execute ext b.2.2 (cmd :: rest)) >>> (8 : Nat), b.2.2)

/-- Externals for worked instances: `isdigit(cmd)` faults, `chdir` succeeds, input
is at its end, `execvp` fails, and every child ends with the raw wait status `raw`. -/
def plain_externals (raw : Int) : Externals :=
  { isdigit_cmd := none
    chdir := fun _ => 0
    next_cmd := none
    exec_end := fun _ => 1
    wait_status := fun _ _ => raw }

/-- Externals for worked instances in which `isdigit(cmd)` returns, non-zero when
`digit` is set; the rest as in `plain_externals`. -/
def returning_externals (digit : Bool) (raw : Int) : Externals :=
  { isdigit_cmd := some digit
    chdir := fun _ => 0
    next_cmd := none
    exec_end := fun _ => 1
    wait_status := fun _ _ => raw }

/-- A table without a free slot, for worked instances: slot `i` holds the name made
of `i + 1` letters `a`, bound to `x`. -/
def full_table : Table :=
  fun i => { str := some (List.replicate (i + 1) 'a' ++ "=x".toList), global := false }

/-! ## Lemmas on the table -/

theorem strncmp_eq_self_append (name rest : CStr) :
    strncmp_eq (name ++ rest) name name.length = true := by
  induction name with
  | nil => cases rest <;> simp [strncmp_eq]
  | cons c name ih => simpa [strncmp_eq] using ih

theorem entry_matches_new_string (name val : CStr) :
    entry_matches (new_string name val) name = true := by
  have hget : (name ++ '=' :: val)[name.length]? = some '=' := by
    rw [List.getElem?_append_right (Nat.le_refl _)]
    simp
  simp [entry_matches, new_string, strncmp_eq_self_append, hget]

theorem find_item_scan_le (tab : Table) (name : CStr) :
    ∀ (n i : Nat), i ≤ (find_item_scan tab name n i).1 := by
  intro n
  induction n with
  | zero => intro i; simp [find_item_scan]
  | succ n ih =>
    intro i
    unfold find_item_scan
    cases h : (tab i).str with
    | none => simp
    | some s =>
      by_cases hm : entry_matches s name = true
      · simp [hm]
      · have hm : entry_matches s name = false := by simpa using hm
        simp only [hm]
        exact Nat.le_of_succ_le (by simpa using ih (i + 1))

/-- After the slot the scan ended on is given a string matching `name`, the same
scan returns that slot from its body. -/
theorem find_item_scan_setSlot (tab : Table) (name : CStr) (v : var) (s : CStr)
    (hv : v.str = some s) (hs : entry_matches s name = true) :
    ∀ (n i j : Nat) (b : Bool), find_item_scan tab name n i = (j, b) →
      (b = true ∨ j < i + n) →
      find_item_scan (setSlot tab j v) name n i = (j, true) := by
  intro n
  induction n with
  | zero =>
    intro i j b h hb
    simp [find_item_scan] at h
    rcases hb with hb | hb
    · simp [hb] at h
    · omega
  | succ n ih =>
    intro i j b h hb
    unfold find_item_scan at h ⊢
    cases hstr : (tab i).str with
    | none =>
      simp only [hstr] at h
      have hji : i = j := by simpa using congrArg Prod.fst h
      subst hji
      simp [setSlot, hv, hs]
    | some t =>
      simp only [hstr] at h
      by_cases hm : entry_matches t name = true
      · simp only [hm, if_true] at h
        have hji : i = j := by simpa using congrArg Prod.fst h
        subst hji
        simp [setSlot, hv, hs]
      · have hm : entry_matches t name = false := by simpa using hm
        simp only [hm] at h
        have h : find_item_scan tab name n (i + 1) = (j, b) := by simpa using h
        have hle := find_item_scan_le tab name n (i + 1)
        rw [h] at hle
        have hne : i ≠ j := by
          intro e; subst e; simp at hle
        have hslot : (setSlot tab j v i).str = some t := by
          simp [setSlot, hne, hstr]
        simp only [hslot, hm]
        have hgoal := ih (i + 1) j b h
        have hcond : b = true ∨ j < i + 1 + n := by
          rcases hb with hb | hb
          · exact Or.inl hb
          · right; omega
        simpa using hgoal hcond

theorem find_item_true_lt (tab : Table) (name : CStr) (i : Nat)
    (h : find_item tab name true = some i) :
    ∃ b, find_item_scan tab name MAXVARS 0 = (i, b) ∧ (b = true ∨ i < 0 + MAXVARS) := by
  unfold find_item at h
  rcases hsc : find_item_scan tab name MAXVARS 0 with ⟨j, b⟩
  rw [hsc] at h
  cases b with
  | true =>
    simp at h
    exact ⟨true, by simp [h], Or.inl rfl⟩
  | false =>
    simp at h
    exact ⟨false, by simp [h.2], Or.inr (by simpa [h.2] using h.1)⟩

/-- The slot `VLstore` writes is the one `VLlookup` finds afterwards. -/
theorem VLlookup_after_store (tab : Table) (name val : CStr) (i : Nat)
    (h : find_item tab name true = some i) (g : Bool) :
    VLlookup (setSlot tab i { str := some (new_string name val), global := g }) name = val := by
  obtain ⟨b, hsc, hb⟩ := find_item_true_lt tab name i h
  have hscan := find_item_scan_setSlot tab name
    { str := some (new_string name val), global := g } (new_string name val) rfl
    (entry_matches_new_string name val) MAXVARS 0 i b hsc hb
  simp only [VLlookup, find_item, hscan]
  simp [setSlot, new_string, Nat.add_comm]

/-! ## Lemmas on the scan -/

theorem Scan.prepend_nil (r : Scan) : r.prepend [] = r := by
  cases r <;> simp [Scan.prepend]

theorem Scan.prepend_prepend (a b : CStr) (r : Scan) :
    (r.prepend b).prepend a = r.prepend (a ++ b) := by
  cases r <;> simp [Scan.prepend, Int.add_assoc]

theorem escape_char_append (pre rest : CStr) (k : Nat) :
    escape_char (pre ++ rest) (pre.length + k)
      = (pre ++ (escape_char rest k).1, (pre.length : Int) + (escape_char rest k).2) := by
  simp only [escape_char, List.take_append, Nat.add_assoc, List.drop_append,
    List.append_assoc, List.length_append]
  simp

theorem substitute_append (tab : Table) (pre rest : CStr) (k : Nat) :
    substitute tab (pre ++ rest) (pre.length + k)
      = (pre ++ (substitute tab rest k).1, (pre.length : Int) + (substitute tab rest k).2) := by
  simp only [substitute, List.take_append, Nat.add_assoc, List.drop_append,
    List.append_assoc, List.length_append]
  simp only [Prod.mk.injEq, true_and]
  push_cast
  omega

/-- Scanning behind a prefix that is already dealt with is scanning the rest. -/
theorem scan_loop_append (tab : Table) :
    ∀ (fuel : Nat) (pre rest : CStr) (k : Nat),
      scan_loop tab fuel (pre ++ rest) ((pre.length + k : Nat) : Int)
        = (scan_loop tab fuel rest (k : Int)).prepend pre := by
  intro fuel
  induction fuel with
  | zero => intro pre rest k; simp [scan_loop, Scan.prepend]
  | succ fuel ih =>
    intro pre rest k
    unfold scan_loop
    by_cases hk : rest.length < k
    · have h1 : ((pre.length + k : Nat) : Int) < 0 ∨
          ((pre ++ rest).length : Int) < ((pre.length + k : Nat) : Int) := by
        right; simp only [List.length_append]; omega
      have h2 : (k : Int) < 0 ∨ (rest.length : Int) < (k : Int) := by
        right; omega
      simp only [h1, h2, if_true, Scan.prepend]
      simp
    · have h1 : ¬ (((pre.length + k : Nat) : Int) < 0 ∨
          ((pre ++ rest).length : Int) < ((pre.length + k : Nat) : Int)) := by
        simp only [List.length_append]; omega
      have h2 : ¬ ((k : Int) < 0 ∨ (rest.length : Int) < (k : Int)) := by omega
      simp only [h1, h2, if_false, Int.toNat_ofNat]
      have hget : (pre ++ rest)[pre.length + k]? = rest[k]? := by
        rw [List.getElem?_append_right (Nat.le_add_right _ _)]
        simp
      rw [hget]
      cases hc : rest[k]? with
      | none => simp [Scan.prepend]
      | some c =>
        simp only []
        by_cases hb : c = '\\'
        · simp only [hb, if_true, escape_char_append]
          have e1 : (pre.length : Int) + (escape_char rest k).2 + 1
              = ((pre.length + ((rest.take k).length + 1) : Nat) : Int) := by
            simp only [escape_char]; push_cast; omega
          have e2 : (escape_char rest k).2 + 1 = (((rest.take k).length + 1 : Nat) : Int) := by
            simp only [escape_char]; push_cast; omega
          rw [e1, e2]
          exact ih _ _ _
        · simp only [hb, if_false]
          by_cases hd : c = '$'
          · simp only [hd, if_true, substitute_append]
            obtain ⟨m, hm⟩ : ∃ m : Nat, (substitute tab rest k).2 + 1 = (m : Int) := by
              refine ⟨(rest.take k).length +
                (replacement tab ((rest.drop (k + 1)).take
                  (name_span (rest.drop (k + 1))))).length, ?_⟩
              simp only [substitute]; push_cast; omega
            have e1 : (pre.length : Int) + (substitute tab rest k).2 + 1
                = ((pre.length + m : Nat) : Int) := by
              push_cast; omega
            rw [e1, hm]
            exact ih _ _ _
          · simp only [hd, if_false]
            have e1 : ((pre.length + k : Nat) : Int) + 1 = ((pre.length + (k + 1) : Nat) : Int) := by
              push_cast; omega
            have e2 : (k : Int) + 1 = ((k + 1 : Nat) : Int) := by push_cast; rfl
            rw [e1, e2]
            exact ih _ _ _

theorem scan_loop_succ (tab : Table) (fuel : Nat) (cmdline : CStr) (substr : Int) :
    scan_loop tab (fuel + 1) cmdline substr =
      if substr < 0 ∨ (cmdline.length : Int) < substr then Scan.overrun cmdline substr
      else
        match cmdline[substr.toNat]? with
        | none => Scan.done cmdline
        | some c =>
          if c = '\\' then
            scan_loop tab fuel (escape_char cmdline substr.toNat).1
              ((escape_char cmdline substr.toNat).2 + 1)
          else if c = '$' then
            scan_loop tab fuel (substitute tab cmdline substr.toNat).1
              ((substitute tab cmdline substr.toNat).2 + 1)
          else scan_loop tab fuel cmdline (substr + 1) := by
  rw [scan_loop]

theorem escape_char_measure (cmdline : CStr) (k : Nat) (hk : k < cmdline.length) :
    0 ≤ (escape_char cmdline k).2 + 1 ∧
      ((escape_char cmdline k).1.length : Int) - ((escape_char cmdline k).2 + 1)
        < (cmdline.length : Int) - (k : Int) := by
  simp only [escape_char, List.length_append, List.length_take, List.length_drop]
  push_cast
  omega

theorem substitute_measure (tab : Table) (cmdline : CStr) (k : Nat) (hk : k < cmdline.length) :
    0 ≤ (substitute tab cmdline k).2 + 1 ∧
      ((substitute tab cmdline k).1.length : Int) - ((substitute tab cmdline k).2 + 1)
        < (cmdline.length : Int) - (k : Int) := by
  simp only [substitute, List.length_append, List.length_take, List.length_drop]
  push_cast
  omega

/-- Once the iteration bound exceeds the distance to the terminator, more
iterations change nothing. -/
theorem scan_loop_fuel (tab : Table) :
    ∀ (f : Nat) (cmdline : CStr) (p : Int) (d : Nat), 0 ≤ p → 0 < f →
      (cmdline.length : Int) - p < (f : Int) →
      scan_loop tab (f + d) cmdline p = scan_loop tab f cmdline p := by
  intro f
  induction f with
  | zero => intro cmdline p d _ hf; omega
  | succ f ih =>
    intro cmdline p d hp _ hlen
    have hfd : f + 1 + d = (f + d) + 1 := by omega
    rw [hfd]
    unfold scan_loop
    by_cases hov : p < 0 ∨ (cmdline.length : Int) < p
    · simp only [hov, if_true]
    · simp only [hov, if_false]
      cases hc : cmdline[p.toNat]? with
      | none => rfl
      | some c =>
        have hk : p.toNat < cmdline.length := by
          by_contra hcon
          rw [List.getElem?_eq_none (Nat.le_of_not_lt hcon)] at hc
          cases hc
        have hpk : ((p.toNat : Nat) : Int) = p := Int.toNat_of_nonneg hp
        simp only []
        by_cases hb : c = '\\'
        · simp only [hb, if_true]
          have hm := escape_char_measure cmdline p.toNat hk
          exact ih _ _ d hm.1 (by omega) (by omega)
        · simp only [hb, if_false]
          by_cases hd : c = '$'
          · simp only [hd, if_true]
            have hm := substitute_measure tab cmdline p.toNat hk
            exact ih _ _ d hm.1 (by omega) (by omega)
          · simp only [hd, if_false]
            exact ih _ _ d (by omega) (by omega) (by omega)

/-- The scan of a whole line never stops for lack of iterations: any bound above
`strlen(cmdline)` gives the result of `substitute_variables`. -/
theorem scan_loop_enough (tab : Table) (cmdline : CStr) (d : Nat) :
    scan_loop tab (cmdline.length + 1 + d) cmdline 0 = substitute_variables tab cmdline := by
  unfold substitute_variables
  exact scan_loop_fuel tab (cmdline.length + 1) cmdline 0 d (le_refl _) (by omega)
    (by push_cast; omega)

/-- With an iteration bound above the distance to the terminator the loop ends
by itself: it returns the line or reads outside the buffer. -/
theorem scan_loop_finishes (tab : Table) :
    ∀ (f : Nat) (cmdline : CStr) (p : Int), 0 ≤ p → 0 < f →
      (cmdline.length : Int) - p < (f : Int) →
      scan_loop tab f cmdline p ≠ Scan.unfinished := by
  intro f
  induction f with
  | zero => intro cmdline p _ hf; omega
  | succ f ih =>
    intro cmdline p hp _ hlen
    rw [scan_loop_succ]
    by_cases hov : p < 0 ∨ (cmdline.length : Int) < p
    · simp only [hov, if_true]
      exact fun h => Scan.noConfusion h
    · simp only [hov, if_false]
      cases hc : cmdline[p.toNat]? with
      | none => exact fun h => Scan.noConfusion h
      | some c =>
        have hk : p.toNat < cmdline.length := by
          by_contra hcon
          rw [List.getElem?_eq_none (Nat.le_of_not_lt hcon)] at hc
          cases hc
        have hpk : ((p.toNat : Nat) : Int) = p := Int.toNat_of_nonneg hp
        simp only []
        by_cases hb : c = '\\'
        · simp only [hb, if_true]
          have hm := escape_char_measure cmdline p.toNat hk
          exact ih _ _ hm.1 (by omega) (by omega)
        · simp only [hb, if_false]
          by_cases hd : c = '$'
          · simp only [hd, if_true]
            have hm := substitute_measure tab cmdline p.toNat hk
            exact ih _ _ hm.1 (by omega) (by omega)
          · simp only [hd, if_false]
            exact ih _ _ (by omega) (by omega) (by omega)

/-- The iteration bound of `substitute_variables` is never what ends the scan. -/
theorem substitute_variables_finishes (tab : Table) (cmdline : CStr) :
    substitute_variables tab cmdline ≠ Scan.unfinished :=
  scan_loop_finishes tab (cmdline.length + 1) cmdline 0 (le_refl _) (by omega)
    (by push_cast; omega)

/-- Characters other than `$` and backslash are stepped over one by one. -/
theorem scan_loop_literal (tab : Table) (rest : CStr) (f : Nat) :
    ∀ (p : CStr), (∀ c ∈ p, c ≠ '$' ∧ c ≠ '\\') →
      scan_loop tab (f + p.length) (p ++ rest) 0 = (scan_loop tab f rest 0).prepend p := by
  intro p
  induction p with
  | nil => intro _; simp [Scan.prepend_nil]
  | cons c p ih =>
    intro hp
    have hc := hp c (List.mem_cons_self c p)
    have hp2 : ∀ c ∈ p, c ≠ '$' ∧ c ≠ '\\' := fun x hx => hp x (List.mem_cons_of_mem c hx)
    have hf : f + (c :: p).length = (f + p.length) + 1 := by simp; omega
    have h := scan_loop_append tab (f + p.length) [c] (p ++ rest) 0
    simp only [List.length_singleton, List.singleton_append, Nat.add_zero, Nat.cast_one,
      Nat.cast_zero] at h
    rw [hf, scan_loop_succ]
    simp only [List.cons_append]
    have hov : ¬ ((0 : Int) < 0 ∨ (((c :: (p ++ rest)).length : Nat) : Int) < 0) := by omega
    rw [if_neg hov]
    simp only [Int.toNat_zero, List.getElem?_cons_zero, hc.1, hc.2, if_false, Int.zero_add]
    rw [h, ih hp2, Scan.prepend_prepend]
    simp

/-- A whole line behind a literal prefix. -/
theorem substitute_variables_literal (tab : Table) (p rest : CStr)
    (hp : ∀ c ∈ p, c ≠ '$' ∧ c ≠ '\\') :
    substitute_variables tab (p ++ rest) = (substitute_variables tab rest).prepend p := by
  have h := scan_loop_literal tab rest (rest.length + 1) p hp
  unfold substitute_variables
  have hl : (p ++ rest).length + 1 = rest.length + 1 + p.length := by
    simp only [List.length_append]; omega
  rw [hl, h]

/-- A line that starts with `$`: the replacement, then the scan of what follows
the name. -/
theorem substitute_variables_dollar (tab : Table) (after : CStr) :
    substitute_variables tab ('$' :: after)
      = (substitute_variables tab (after.drop (name_span after))).prepend
          (replacement tab (after.take (name_span after))) := by
  unfold substitute_variables
  rw [scan_loop_succ]
  have hov : ¬ ((0 : Int) < 0 ∨ ((('$' :: after).length : Nat) : Int) < 0) := by omega
  rw [if_neg hov]
  have hsub : substitute tab ('$' :: after) 0
      = (replacement tab (after.take (name_span after)) ++ after.drop (name_span after),
          ((replacement tab (after.take (name_span after))).length : Int) - 1) := by
    simp [substitute]
  have hne : ('$' : Char) ≠ '\\' := by decide
  simp only [Int.toNat_zero, List.getElem?_cons_zero, hne, if_false, if_true, hsub]
  have h := scan_loop_append tab ('$' :: after).length
    (replacement tab (after.take (name_span after))) (after.drop (name_span after)) 0
  simp only [Nat.add_zero, Nat.cast_zero] at h
  rw [Int.sub_add_cancel, h]
  congr 1
  have hlen : ('$' :: after).length
      = (after.drop (name_span after)).length + 1 + (after.length - (after.drop (name_span after)).length) := by
    simp only [List.length_cons, List.length_drop]; omega
  rw [hlen]
  exact scan_loop_enough tab _ _

/-- A line that starts with a backslash followed by a character: that character,
then the scan of what follows it. -/
theorem substitute_variables_backslash (tab : Table) (c : Char) (s : CStr) :
    substitute_variables tab ('\\' :: c :: s) = (substitute_variables tab s).prepend [c] := by
  unfold substitute_variables
  rw [scan_loop_succ]
  have hov : ¬ ((0 : Int) < 0 ∨ ((('\\' :: c :: s).length : Nat) : Int) < 0) := by omega
  rw [if_neg hov]
  have hesc : escape_char ('\\' :: c :: s) 0 = (c :: s, 0) := by simp [escape_char]
  simp only [Int.toNat_zero, List.getElem?_cons_zero, if_true, hesc]
  have h := scan_loop_append tab ('\\' :: c :: s).length [c] s 0
  simp only [List.length_singleton, List.singleton_append, Nat.add_zero, Nat.cast_one,
    Nat.cast_zero] at h
  rw [Int.zero_add, h]
  congr 1
  exact scan_loop_enough tab s 1

theorem name_span_identifier (d : Char) (n s : CStr)
    (hn : ∀ c ∈ d :: n, is_valid_bash_variable c = true)
    (hd : is_bash_special_char d = false)
    (hs : ∀ c ∈ s.head?, is_valid_bash_variable c = false) :
    name_span (d :: n ++ s) = (d :: n).length := by
  have htw : ∀ (m : CStr), (∀ c ∈ m, is_valid_bash_variable c = true) →
      (m ++ s).takeWhile is_valid_bash_variable = m := by
    intro m
    induction m with
    | nil =>
      intro _
      cases s with
      | nil => rfl
      | cons e s => simp [List.takeWhile, hs e (by simp)]
    | cons e m ih =>
      intro hm
      simp [List.takeWhile, hm e (List.mem_cons_self e m),
        ih (fun x hx => hm x (List.mem_cons_of_mem e hx))]
  have h2 := htw (d :: n) hn
  simp only [List.cons_append] at h2
  simp only [name_span, List.cons_append, hd, h2]
  simp

theorem name_span_none (s : CStr)
    (hs : ∀ c ∈ s.head?, is_valid_bash_variable c = false ∧ is_bash_special_char c = false) :
    name_span s = 0 := by
  cases s with
  | nil => rfl
  | cons e s => simp [name_span, List.takeWhile, (hs e (by simp)).1, (hs e (by simp)).2]

theorem is_valid_bash_variable_iff (c : Char) :
    is_valid_bash_variable c = true ↔ (c.isAlpha ∨ c.isDigit ∨ c = '_') := by
  simp [is_valid_bash_variable, Char.isAlphanum, or_assoc]

theorem is_bash_special_char_iff (c : Char) :
    is_bash_special_char c = true ↔ (c.isDigit ∨ c = '$' ∨ c = '?') := by
  simp [is_bash_special_char, or_assoc]

/-- An identifier character that is no digit is none of the special characters. -/
theorem not_special_of_valid (c : Char) (hv : c.isAlpha ∨ c.isDigit ∨ c = '_')
    (hd : ¬ c.isDigit) : is_bash_special_char c = false := by
  have h : ¬ (is_bash_special_char c = true) := by
    rw [is_bash_special_char_iff]
    rintro (h | h | h)
    · exact hd h
    · subst h; revert hv; decide
    · subst h; revert hv; decide
  simpa using h

theorem name_span_special (c : Char) (s : CStr) (hc : is_bash_special_char c = true) :
    name_span (c :: s) = 1 := by
  simp [name_span, hc]

/-! ## Theorems on the variable store -/

/-- C2: whenever `VLstore(name, value)` returns 0, a `VLlookup(name)` on the table
it leaves returns exactly `value`.  This holds for every table state (name bound
before or not, other entries arbitrary, also entries whose names share a prefix
with `name`) and for every name, in particular the identifier-valid ones. -/
theorem VLstore_then_VLlookup (tab : Table) (name value : CStr)
    (h : (VLstore tab name value).1 = 0) :
    VLlookup (VLstore tab name value).2 name = value := by
  unfold VLstore at h ⊢
  cases hf : find_item tab name true with
  | none => simp [hf] at h
  | some i =>
    simp only [hf]
    exact VLlookup_after_store tab name value i hf _


/-! ## Theorems on the substitution engine -/

/-- C1: behind a prefix `p` free of `$` and backslash, `$n` with `n` a non-empty
run of letters, digits and underscores that does not start with a digit, followed
by a suffix `s` that is empty or starts with a character outside that class, is
replaced by `VLlookup(n)`, verbatim, and the scan goes on with `s`:
`substitute_variables(p ++ "$" ++ n ++ s) = p ++ VLlookup(n) ++ substitute_variables(s)`.
When `find_item` has no entry for `n` the contribution is the empty string. -/
theorem substitute_variables_named (tab : Table) (p n s : CStr)
    (hp : ∀ c ∈ p, c ≠ '$' ∧ c ≠ '\\')
    (hne : n ≠ [])
    (hn : ∀ c ∈ n, c.isAlpha ∨ c.isDigit ∨ c = '_')
    (hd : ∀ c ∈ n.head?, ¬ c.isDigit)
    (hs : ∀ c ∈ s.head?, ¬ (c.isAlpha ∨ c.isDigit ∨ c = '_')) :
    substitute_variables tab (p ++ '$' :: (n ++ s))
        = (substitute_variables tab s).prepend (p ++ VLlookup tab n) ∧
      (find_item tab n false = none →
        substitute_variables tab (p ++ '$' :: (n ++ s))
          = (substitute_variables tab s).prepend p) := by
  have key : substitute_variables tab (p ++ '$' :: (n ++ s))
      = (substitute_variables tab s).prepend (p ++ VLlookup tab n) := by
    cases n with
    | nil => exact absurd rfl hne
    | cons d n =>
      have hvalid : ∀ c ∈ d :: n, is_valid_bash_variable c = true :=
        fun c hc => (is_valid_bash_variable_iff c).2 (hn c hc)
      have hspec : is_bash_special_char d = false :=
        not_special_of_valid d (hn d (List.mem_cons_self d n)) (hd d (by simp))
      have hsuf : ∀ c ∈ s.head?, is_valid_bash_variable c = false := by
        intro c hc
        have h := hs c hc
        rw [← is_valid_bash_variable_iff] at h
        simpa using h
      have hspan := name_span_identifier d n s hvalid hspec hsuf
      rw [substitute_variables_literal tab p _ hp, substitute_variables_dollar, hspan,
        List.drop_left, List.take_left, Scan.prepend_prepend]
      simp [replacement]
  refine ⟨key, ?_⟩
  intro hnone
  rw [key]
  simp [VLlookup, hnone]

/-- C1, at the spec's instance: with `FOO` unbound (the empty table), `[$FOO]`
becomes `[]`. -/
theorem substitute_variables_named_witness :
    substitute_variables emptyTable "[$FOO]".toList = Scan.done "[]".toList :=
  ((substitute_variables_named emptyTable "[".toList "FOO".toList "]".toList
      (by decide) (by decide) (by decide) (by decide) (by decide)).2 (by decide)).trans
    (by decide)

/-- C7: behind a prefix `p` free of `$` and backslash, a backslash followed by a
character `c` is dropped and `c` stays as a literal, whatever `c` is, and the scan
goes on behind `c`:
`substitute_variables(p ++ backslash ++ [c] ++ s) = p ++ [c] ++ substitute_variables(s)`. -/
theorem substitute_variables_escape (tab : Table) (p : CStr) (c : Char) (s : CStr)
    (hp : ∀ c ∈ p, c ≠ '$' ∧ c ≠ '\\') :
    substitute_variables tab (p ++ '\\' :: c :: s)
      = (substitute_variables tab s).prepend (p ++ [c]) := by
  rw [substitute_variables_literal tab p _ hp, substitute_variables_backslash,
    Scan.prepend_prepend]

/-- C7, at the spec's instance behind the prefix `echo `: with `FOO` bound to
`bar`, the escaped `$FOO` stays `$FOO`. -/
theorem substitute_variables_escape_witness :
    substitute_variables (VLstore emptyTable "FOO".toList "bar".toList).2
        ("echo ".toList ++ '\\' :: '$' :: "FOO".toList)
      = Scan.done "echo $FOO".toList :=
  (substitute_variables_escape (VLstore emptyTable "FOO".toList "bar".toList).2
      "echo ".toList '$' "FOO".toList (by decide)).trans (by decide)

/-- C8 as stated fails: in a table that binds the empty name to `x` (left by
`VLstore("", "x")`), the bare `$` of `cost: $` is replaced by `x`. -/
theorem substitute_variables_bare_dollar_counterexample :
    substitute_variables (VLstore emptyTable [] ['x']).2 "cost: $".toList
        = Scan.done "cost: x".toList ∧
      substitute_variables (VLstore emptyTable [] ['x']).2 ("cost: ".toList ++ '$' :: [])
        ≠ (substitute_variables (VLstore emptyTable [] ['x']).2 []).prepend
            ("cost: ".toList ++ ['$']) := by
  decide

/-- C8, amended: in every table in which `VLlookup("")` is the empty string,
behind a prefix `p` free of `$` and backslash a `$` followed by a suffix `s` that
is empty or starts with a character that is none of letter, digit, underscore, `$`,
`?` stays a literal `$`:
`substitute_variables(p ++ "$" ++ s) = p ++ "$" ++ substitute_variables(s)`. -/
theorem substitute_variables_bare_dollar (tab : Table) (p s : CStr)
    (hp : ∀ c ∈ p, c ≠ '$' ∧ c ≠ '\\')
    (hs : ∀ c ∈ s.head?, ¬ (c.isAlpha ∨ c.isDigit ∨ c = '_' ∨ c = '$' ∨ c = '?'))
    (hempty : VLlookup tab [] = []) :
    substitute_variables tab (p ++ '$' :: s)
      = (substitute_variables tab s).prepend (p ++ ['$']) := by
  have hsuf : ∀ c ∈ s.head?,
      is_valid_bash_variable c = false ∧ is_bash_special_char c = false := by
    intro c hc
    have h := hs c hc
    constructor
    · have h1 : ¬ (is_valid_bash_variable c = true) := by
        rw [is_valid_bash_variable_iff]; tauto
      simpa using h1
    · have h2 : ¬ (is_bash_special_char c = true) := by
        rw [is_bash_special_char_iff]; tauto
      simpa using h2
  rw [substitute_variables_literal tab p _ hp, substitute_variables_dollar,
    name_span_none s hsuf, Scan.prepend_prepend]
  simp [replacement, hempty]

/-- C8, amended, at the spec's instance: on the empty table `cost: $` is returned
unchanged. -/
theorem substitute_variables_bare_dollar_witness :
    substitute_variables emptyTable "cost: $".toList = Scan.done "cost: $".toList :=
  (substitute_variables_bare_dollar emptyTable "cost: ".toList [] (by decide) (by decide)
      (by decide)).trans (by decide)

/-- C9: behind a prefix `p` free of `$` and backslash, `$c` with `c` a decimal
digit, `$` or `?` is replaced by `VLlookup([c])` whatever follows, the name being
the single character `c`:
`substitute_variables(p ++ "$" ++ [c] ++ s) = p ++ VLlookup([c]) ++ substitute_variables(s)`. -/
theorem substitute_variables_special (tab : Table) (p : CStr) (c : Char) (s : CStr)
    (hp : ∀ c ∈ p, c ≠ '$' ∧ c ≠ '\\')
    (hc : c.isDigit ∨ c = '$' ∨ c = '?') :
    substitute_variables tab (p ++ '$' :: c :: s)
      = (substitute_variables tab s).prepend (p ++ VLlookup tab [c]) := by
  have hspan := name_span_special c s ((is_bash_special_char_iff c).2 hc)
  rw [substitute_variables_literal tab p _ hp, substitute_variables_dollar, hspan,
    Scan.prepend_prepend]
  simp [replacement]

/-- C9, at an instance: with `1` bound to `one`, `echo $1abc` becomes
`echo oneabc`. -/
theorem substitute_variables_special_witness :
    substitute_variables (VLstore emptyTable ['1'] "one".toList).2 "echo $1abc".toList
      = Scan.done "echo oneabc".toList :=
  (substitute_variables_special (VLstore emptyTable ['1'] "one".toList).2
      "echo ".toList '1' "abc".toList (by decide) (by decide)).trans (by decide)

/-- C10 as stated fails: with `FOO` bound to `bar` and nothing else in the table,
`pre$FOOpost` does not become `prebarpost`. -/
theorem substitute_variables_maximal_counterexample :
    VLlookup (VLstore emptyTable "FOO".toList "bar".toList).2 "FOO".toList = "bar".toList ∧
      substitute_variables (VLstore emptyTable "FOO".toList "bar".toList).2
          "pre$FOOpost".toList
        ≠ Scan.done "prebarpost".toList := by
  decide

/-- C10, amended: when the only entry of the table is `FOO=bar` (exported or not),
`substitute_variables("pre$FOOpost")` returns `pre`: the name is the whole run
`FOOpost`, which is unbound. -/
theorem substitute_variables_maximal (g : Bool) :
    substitute_variables (setSlot emptyTable 0 { str := some "FOO=bar".toList, global := g })
        "pre$FOOpost".toList
      = Scan.done "pre".toList := by
  cases g <;> decide

/-! ## Theorems on the control flow -/

/-- C3: the return value of `ok_to_execute` is the tabulated one for every pair
of state and branch result: 1 in `NEUTRAL`, 0 in `WANT_THEN`, in `THEN_BLOCK` 1 for
`SUCCESS` and 0 for `FAIL`, in `ELSE_BLOCK` 0 for `SUCCESS` and 1 for `FAIL`. -/
theorem ok_to_execute_table {W : Type} (s : Shell W) (r : results) :
    (ok_to_execute { s with if_state := states.NEUTRAL, if_result := r }).1 = 1 ∧
    (ok_to_execute { s with if_state := states.WANT_THEN, if_result := r }).1 = 0 ∧
    (ok_to_execute { s with if_state := states.THEN_BLOCK, if_result := results.SUCCESS }).1 = 1 ∧
    (ok_to_execute { s with if_state := states.THEN_BLOCK, if_result := results.FAIL }).1 = 0 ∧
    (ok_to_execute { s with if_state := states.ELSE_BLOCK, if_result := results.SUCCESS }).1 = 0 ∧
    (ok_to_execute { s with if_state := states.ELSE_BLOCK, if_result := results.FAIL }).1 = 1 := by
  cases r <;> simp [ok_to_execute]

theorem process_keyword {W : Type} (do_command : List CStr → W → Outcome (Int × W))
    (s : Shell W) (cmd : CStr) (rest : List CStr) (hk : is_control_command cmd = true) :
    process do_command (cmd :: rest) s
      = do_control_command (process do_command rest) cmd s := by
  simp [process, hk]

theorem process_command_neutral {W : Type} (do_command : List CStr → W → Outcome (Int × W))
    (s : Shell W) (c : CStr) (rest : List CStr) (st : Int) (w : W)
    (hstate : s.if_state = states.NEUTRAL)
    (hc : is_control_command c = false)
    (hrun : do_command (c :: rest) s.world = Outcome.returned (st, w)) :
    process do_command (c :: rest) s
      = Outcome.returned (st, { s with world := w, calls := s.calls ++ [c :: rest] }) := by
  simp [process, hc, ok_to_execute, hstate, hrun]

/-- C4: on every legal cell `do_control_command` returns 0 and moves to the
tabulated state.  `if` in `NEUTRAL`, the condition being a command `c :: rest`
with `c` no keyword that `do_command` runs with status `st`: `WANT_THEN`, with
`if_result` `SUCCESS` when `st = 0` and `FAIL` otherwise.  `then` in `WANT_THEN`:
`THEN_BLOCK`.  `else` in `THEN_BLOCK`: `ELSE_BLOCK`.  `fi` in `THEN_BLOCK` or
`ELSE_BLOCK`: `NEUTRAL`.  `then`, `else` and `fi` change nothing but `if_state`. -/
theorem do_control_command_legal {W : Type}
    (do_command : List CStr → W → Outcome (Int × W)) (s : Shell W)
    (process_rest : Shell W → Outcome (Int × Shell W)) :
    (∀ (c : CStr) (rest : List CStr) (st : Int) (w : W),
      is_control_command c = false →
      do_command (c :: rest) s.world = Outcome.returned (st, w) →
      do_control_command (process do_command (c :: rest)) "if".toList
          { s with if_state := states.NEUTRAL }
        = Outcome.returned (0,
            { s with
              if_state := states.WANT_THEN
              if_result := if st = 0 then results.SUCCESS else results.FAIL
              last_stat := st
              world := w
              calls := s.calls ++ [c :: rest] })) ∧
    do_control_command process_rest "then".toList { s with if_state := states.WANT_THEN }
      = Outcome.returned (0, { s with if_state := states.THEN_BLOCK }) ∧
    do_control_command process_rest "else".toList { s with if_state := states.THEN_BLOCK }
      = Outcome.returned (0, { s with if_state := states.ELSE_BLOCK }) ∧
    do_control_command process_rest "fi".toList { s with if_state := states.THEN_BLOCK }
      = Outcome.returned (0, { s with if_state := states.NEUTRAL }) ∧
    do_control_command process_rest "fi".toList { s with if_state := states.ELSE_BLOCK }
      = Outcome.returned (0, { s with if_state := states.NEUTRAL }) := by
  refine ⟨?_, ?_, ?_, ?_, ?_⟩
  · intro c rest st w hc hrun
    have hp := process_command_neutral do_command { s with if_state := states.NEUTRAL }
      c rest st w rfl hc hrun
    simp [do_control_command, hp]
  · simp [do_control_command]
  · simp [do_control_command]
  · simp [do_control_command]
  · simp [do_control_command]

/-- C4, at an instance: in the initial state, `if false` (a command of status 1)
leads to `WANT_THEN` with `FAIL`, and has been handed to `do_command`. -/
theorem do_control_command_legal_witness :
    do_control_command
        (process (fun _ (w : Unit) => Outcome.returned (1, w)) ["false".toList])
        "if".toList (Shell.init ())
      = Outcome.returned (0,
          { if_state := states.WANT_THEN, if_result := results.FAIL, last_stat := 1,
            world := (), calls := [["false".toList]] }) :=
  (do_control_command_legal (fun _ (w : Unit) => Outcome.returned (1, w)) (Shell.init ())
      (fun s => Outcome.returned (0, s))).1 "false".toList [] 1 () (by decide) rfl

/-- C5 fails on the `else` cells: in `NEUTRAL`, `WANT_THEN` and `ELSE_BLOCK` the
`else` branch calls `syn_err` and then falls through to `if_state = ELSE_BLOCK;
rv = 0`, so `do_control_command` returns 0 and leaves `ELSE_BLOCK`.  The other
error cells (`if` outside `NEUTRAL`, `then` outside `WANT_THEN`, `fi` in `NEUTRAL`
or `WANT_THEN`) return -1 and leave `NEUTRAL`. -/
theorem do_control_command_else_error {W : Type} (s : Shell W)
    (process_rest : Shell W → Outcome (Int × Shell W)) :
    (∀ st, st = states.NEUTRAL ∨ st = states.WANT_THEN ∨ st = states.ELSE_BLOCK →
      do_control_command process_rest "else".toList { s with if_state := st }
        = Outcome.returned (0, { s with if_state := states.ELSE_BLOCK })) ∧
    (∀ st, st ≠ states.NEUTRAL →
      do_control_command process_rest "if".toList { s with if_state := st }
        = Outcome.returned (-1, { s with if_state := states.NEUTRAL })) ∧
    (∀ st, st ≠ states.WANT_THEN →
      do_control_command process_rest "then".toList { s with if_state := st }
        = Outcome.returned (-1, { s with if_state := states.NEUTRAL })) ∧
    (∀ st, st = states.NEUTRAL ∨ st = states.WANT_THEN →
      do_control_command process_rest "fi".toList { s with if_state := st }
        = Outcome.returned (-1, { s with if_state := states.NEUTRAL })) := by
  refine ⟨?_, ?_, ?_, ?_⟩
  · intro st hst
    rcases hst with h | h | h <;> subst h <;> simp [do_control_command, syn_err]
  · intro st hst
    simp [do_control_command, syn_err, hst]
  · intro st hst
    simp [do_control_command, syn_err, hst]
  · intro st hst
    rcases hst with h | h <;> subst h <;> simp [do_control_command, syn_err]

/-- C5, at the failing input: `else` in the initial state (`NEUTRAL`) returns 0
and leaves `ELSE_BLOCK`. -/
theorem do_control_command_else_error_witness :
    do_control_command (fun s => Outcome.returned (0, s)) "else".toList (Shell.init ())
      = Outcome.returned (0, { Shell.init () with if_state := states.ELSE_BLOCK }) :=
  (do_control_command_else_error (Shell.init ()) (fun s => Outcome.returned (0, s))).1
    states.NEUTRAL (Or.inl rfl)

theorem process_skipped {W : Type} (do_command : List CStr → W → Outcome (Int × W))
    (s : Shell W) (args : List CStr)
    (hstate : s.if_state = states.THEN_BLOCK) (hres : s.if_result = results.FAIL)
    (hargs : ∀ c ∈ args.head?, is_control_command c = false) :
    process do_command args s = Outcome.returned (0, s) := by
  cases args with
  | nil => rfl
  | cons c rest =>
    have hc := hargs c (by simp)
    simp [process, hc, ok_to_execute, hstate, hres]

theorem process_lines_skipped {W : Type} (do_command : List CStr → W → Outcome (Int × W))
    (s : Shell W) (more : List (List CStr))
    (hstate : s.if_state = states.THEN_BLOCK) (hres : s.if_result = results.FAIL) :
    ∀ (cs : List (List CStr)),
      (∀ args ∈ cs, ∀ c ∈ args.head?, is_control_command c = false) →
      process_lines do_command (cs ++ more) s = process_lines do_command more s := by
  intro cs
  induction cs with
  | nil => intro _; rfl
  | cons args cs ih =>
    intro h
    have h1 := process_skipped do_command s args hstate hres
      (h args (List.mem_cons_self args cs))
    simp only [List.cons_append, process_lines, h1]
    exact ih (fun a ha => h a (List.mem_cons_of_mem args ha))

/-- C6: starting in `NEUTRAL`, with a condition command `c :: rest` (`c` no
keyword) of non-zero status and any sequence `cs` of lines whose first word is no
keyword, the lines `if c rest...`, `then`, `cs`, `fi` processed in this order end
in `NEUTRAL`, and the only argument vector handed to `do_command` on the way is
the condition: no command of `cs` is executed, and the world is the one the
condition left. -/
theorem if_false_then_skips {W : Type} (do_command : List CStr → W → Outcome (Int × W))
    (s : Shell W) (c : CStr) (rest : List CStr) (st : Int) (w : W)
    (cs : List (List CStr))
    (hstate : s.if_state = states.NEUTRAL)
    (hc : is_control_command c = false)
    (hrun : do_command (c :: rest) s.world = Outcome.returned (st, w))
    (hst : st ≠ 0)
    (hcs : ∀ args ∈ cs, ∀ d ∈ args.head?, is_control_command d = false) :
    process_lines do_command
        (("if".toList :: c :: rest) :: ["then".toList] :: (cs ++ [["fi".toList]])) s
      = Outcome.returned
          { if_state := states.NEUTRAL, if_result := results.FAIL, last_stat := st,
            world := w, calls := s.calls ++ [c :: rest] } := by
  have hp := process_command_neutral do_command s c rest st w hstate hc hrun
  have hif : process do_command ("if".toList :: c :: rest) s
      = Outcome.returned (0,
          { if_state := states.WANT_THEN, if_result := results.FAIL, last_stat := st,
            world := w, calls := s.calls ++ [c :: rest] }) := by
    rw [process_keyword do_command _ _ _ (by decide)]
    simp [do_control_command, hstate, hp, hst]
  have hthen : ∀ t : Shell W, t.if_state = states.WANT_THEN →
      process do_command ["then".toList] t
        = Outcome.returned (0, { t with if_state := states.THEN_BLOCK }) := by
    intro t ht
    rw [process_keyword do_command _ _ _ (by decide)]
    simp [do_control_command, ht]
  have hfi : ∀ t : Shell W, t.if_state = states.THEN_BLOCK →
      process do_command ["fi".toList] t
        = Outcome.returned (0, { t with if_state := states.NEUTRAL }) := by
    intro t ht
    rw [process_keyword do_command _ _ _ (by decide)]
    simp [do_control_command, ht]
  rw [process_lines, hif]
  simp only []
  rw [process_lines, hthen _ rfl]
  simp only []
  rw [process_lines_skipped do_command _ _ rfl rfl cs hcs]
  rw [process_lines, hfi _ rfl]
  simp only [process_lines]

/-- C6, at the spec's instance: `if false`, `then`, `echo hi`, `fi` from the
initial state, `false` having status 1 and `echo` status 0: only `false` is handed
to `do_command`. -/
theorem if_false_then_skips_witness :
    process_lines
        (fun args (w : Unit) =>
          Outcome.returned (if args = ["false".toList] then 1 else 0, w))
        [["if".toList, "false".toList], ["then".toList],
          ["echo".toList, "hi".toList], ["fi".toList]]
        (Shell.init ())
      = Outcome.returned
          { if_state := states.NEUTRAL, if_result := results.FAIL, last_stat := 1,
            world := (), calls := [["false".toList]] } :=
  if_false_then_skips
    (fun args (w : Unit) => Outcome.returned (if args = ["false".toList] then 1 else 0, w))
    (Shell.init ()) "false".toList [] 1 () [["echo".toList, "hi".toList]]
    rfl (by decide) (by decide) (by decide) (by decide)

/-- C2, at an instance with names sharing a prefix: after `FOO=1`, `FOOD=2` and
`FO=3` are stored, storing `FOO=bar` succeeds and `FOO` is looked up as `bar`. -/
theorem VLstore_then_VLlookup_witness :
    (VLstore (VLstore (VLstore (VLstore emptyTable "FOO".toList ['1']).2
        "FOOD".toList ['2']).2 "FO".toList ['3']).2 "FOO".toList "bar".toList).1 = 0 ∧
    VLlookup (VLstore (VLstore (VLstore (VLstore emptyTable "FOO".toList ['1']).2
        "FOOD".toList ['2']).2 "FO".toList ['3']).2 "FOO".toList "bar".toList).2
      "FOO".toList = "bar".toList :=
  ⟨by decide,
    VLstore_then_VLlookup (VLstore (VLstore (VLstore emptyTable "FOO".toList ['1']).2
        "FOOD".toList ['2']).2 "FO".toList ['3']).2 "FOO".toList "bar".toList (by decide)⟩


/-! ## More theorems on the substitution engine -/

/-- C11: a line that holds no `$` and no backslash is returned unchanged, whatever
the table holds. -/
theorem substitute_variables_plain (tab : Table) (line : CStr)
    (h : ∀ c ∈ line, c ≠ '$' ∧ c ≠ '\\') :
    substitute_variables tab line = Scan.done line := by
  have h1 := substitute_variables_literal tab line [] h
  have h2 : substitute_variables tab [] = Scan.done [] := rfl
  rw [h2] at h1
  simpa [Scan.prepend] using h1

/-- C11, at an instance: `echo hello world` on a table that binds `FOO`. -/
theorem substitute_variables_plain_witness :
    substitute_variables (VLstore emptyTable "FOO".toList "bar".toList).2
        "echo hello world".toList
      = Scan.done "echo hello world".toList :=
  substitute_variables_plain _ _ (by decide)

/-! ## Lemmas on the builtins -/

theorem mem_of_contains_eq (cmd : CStr) (h : cmd.contains '=' = true) : '=' ∈ cmd := by
  simpa using h

theorem assign_invalid (tab : Table) (cmd : CStr)
    (hname : okname (cmd.takeWhile (fun c => c != '=')) = 0) :
    assign tab cmd = (-1, tab) := by
  simp [assign, hname]

/-- When `isdigit(cmd)` returns, a token whose name part `okname` rejects is no
assignment, and the table stays as it is. -/
theorem is_assign_var_invalid (b : Bool) (tab : Table) (cmd : CStr) (r : Int)
    (hname : okname (cmd.takeWhile (fun c => c != '=')) = 0) :
    ∃ r1, is_assign_var (some b) tab cmd r = Outcome.returned (0, r1, tab) := by
  unfold is_assign_var
  rw [assign_invalid tab cmd hname]
  simp only []
  split_ifs with h1 h2 h3 h4
  · exact ⟨_, rfl⟩
  · exact ⟨_, rfl⟩
  · exact absurd rfl h4
  · exact ⟨_, rfl⟩
  · exact ⟨_, rfl⟩

/-- When `isdigit(cmd)` faults, every token that holds an `=` ends the process. -/
theorem is_assign_var_killed (tab : Table) (cmd : CStr) (r : Int) (heq : '=' ∈ cmd) :
    is_assign_var none tab cmd r = Outcome.killed := by
  have hc : cmd.contains '=' = true := by simpa using heq
  unfold is_assign_var
  rw [if_pos hc]

theorem is_list_vars_other (cmd : CStr) (r : Int) (h : cmd ≠ "set".toList) :
    is_list_vars cmd r = (0, r) := by
  unfold is_list_vars; rw [if_neg h]

theorem is_export_other (tab : Table) (cmd : CStr) (rest : List CStr) (r : Int)
    (h : cmd ≠ "export".toList) : is_export tab cmd rest r = (0, r, tab) := by
  unfold is_export; rw [if_neg h]

theorem is_cd_other (ext : Externals) (tab : Table) (cmd : CStr) (rest : List CStr) (r : Int)
    (h : cmd ≠ "cd".toList) : is_cd ext tab cmd rest r = Outcome.returned (0, r) := by
  unfold is_cd; rw [if_pos h]

theorem is_exit_other (cmd : CStr) (rest : List CStr) (r : Int)
    (h : cmd ≠ "exit".toList) : is_exit cmd rest r = Outcome.returned (0, r) := by
  unfold is_exit; rw [if_pos h]

theorem is_read_other (ext : Externals) (tab : Table) (cmd : CStr) (rest : List CStr) (r : Int)
    (h : cmd ≠ "read".toList) : is_read ext tab cmd rest r = (0, r, tab) := by
  unfold is_read; rw [if_pos h]

theorem is_exec_other (ext : Externals) (cmd : CStr) (rest : List CStr) (r : Int)
    (h : cmd ≠ "exec".toList) : is_exec ext cmd rest r = Outcome.returned (0, r) := by
  unfold is_exec; rw [if_pos h]

/-- A word that is no assignment and none of the six command names is no builtin. -/
theorem is_builtin_other (ext : Externals) (tab tab1 : Table) (cmd : CStr)
    (rest : List CStr) (r r1 : Int)
    (ha : is_assign_var ext.isdigit_cmd tab cmd r = Outcome.returned (0, r1, tab1))
    (hset : cmd ≠ "set".toList) (hexport : cmd ≠ "export".toList) (hcd : cmd ≠ "cd".toList)
    (hexit : cmd ≠ "exit".toList) (hread : cmd ≠ "read".toList) (hexec : cmd ≠ "exec".toList) :
    is_builtin ext tab cmd rest r = Outcome.returned (0, r1, tab1) := by
  unfold is_builtin
  simp only [ha, is_list_vars_other cmd _ hset, is_export_other _ cmd rest _ hexport,
    is_cd_other ext _ cmd rest _ hcd, is_exit_other cmd rest _ hexit,
    is_read_other ext _ cmd rest _ hread, is_exec_other ext cmd rest _ hexec]
  simp

/-- When `is_assign_var` ends the process, so does `is_builtin`. -/
theorem is_builtin_killed (ext : Externals) (tab : Table) (cmd : CStr) (rest : List CStr)
    (r : Int) (ha : is_assign_var ext.isdigit_cmd tab cmd r = Outcome.killed) :
    is_builtin ext tab cmd rest r = Outcome.killed := by
  simp [is_builtin, ha]

theorem ne_of_mem_eq (cmd word : CStr) (h : '=' ∈ cmd) (hw : '=' ∉ word) : cmd ≠ word := by
  intro e
  subst e
  exact hw h

theorem do_command_other (ext : Externals) (tab tab1 : Table) (cmd : CStr)
    (rest : List CStr) (rv r : Int)
    (h : is_builtin ext tab cmd rest rv = Outcome.returned (0, r, tab1)) :
    do_command ext tab cmd rest rv
      = Outcome.returned (ext.wait_status (environ_of tab1) (cmd :: rest) >>> (8 : Nat), tab1) := by
  simp [do_command, h, execute]

/-! ## Theorems on the builtins and the executor -/

/-- C12 fails at `MY_VAR=1`, whose name `MY_VAR` is a well-formed identifier
(`okname` accepts it), whatever the undefined call `isdigit(cmd)` comes to: when
the call faults the process is killed in `is_assign_var`, as it is for every
token that holds an `=`; when it returns, `is_assign_var` returns 0 and leaves
`*resultp` and the table untouched (for a zero value because the loop returns at
the first character that is `_`).  In no case is 1 returned or `MY_VAR` bound. -/
theorem is_assign_var_underscore :
    okname "MY_VAR".toList = 1 ∧
    (∀ (tab : Table) (r : Int),
      is_assign_var none tab "MY_VAR=1".toList r = Outcome.killed) ∧
    (∀ (b : Bool) (tab : Table) (r : Int),
      is_assign_var (some b) tab "MY_VAR=1".toList r = Outcome.returned (0, r, tab)) ∧
    (∀ (cmd : CStr) (tab : Table) (r : Int), '=' ∈ cmd →
      is_assign_var none tab cmd r = Outcome.killed) := by
  refine ⟨by decide, ?_, ?_, ?_⟩
  · intro tab r
    rfl
  · intro b tab r
    cases b <;> rfl
  · intro cmd tab r heq
    exact is_assign_var_killed tab cmd r heq

/-- C12, at a second instance: with `isdigit(cmd)` faulting, `x=1` too ends the
process in `is_assign_var`, and so in `is_builtin` and `do_command`. -/
theorem is_assign_var_underscore_witness :
    is_assign_var none emptyTable "x=1".toList 0 = Outcome.killed ∧
      do_command (plain_externals 0) emptyTable "x=1".toList [] 0 = Outcome.killed :=
  ⟨is_assign_var_underscore.2.2.2 "x=1".toList emptyTable 0 (by decide), rfl⟩

/-- C13 as stated fails at `1x=3` on the empty table, whatever the undefined call
`isdigit(cmd)` comes to: when it faults the process is killed in `is_builtin`;
when it returns zero, `is_builtin` returns 0 (with `*resultp = -1`) and
`do_command` hands the command to `execute`, returning the child's raw status 256
shifted right by 8; when it returns non-zero, `is_builtin` returns 0 as well.  It
never returns 1. -/
theorem is_builtin_invalid_assignment_counterexample :
    is_builtin (plain_externals 256) emptyTable "1x=3".toList [] 0 = Outcome.killed ∧
      is_builtin (returning_externals false 256) emptyTable "1x=3".toList [] 0
        = Outcome.returned (0, -1, emptyTable) ∧
      do_command (returning_externals false 256) emptyTable "1x=3".toList [] 0
        = Outcome.returned (1, emptyTable) ∧
      is_builtin (returning_externals true 256) emptyTable "1x=3".toList [] 0
        = Outcome.returned (0, 0, emptyTable) := by
  refine ⟨rfl, rfl, rfl, rfl⟩

/-- C13, amended: for a first token that contains `=` and whose name part (the
text before the first `=`) `okname` rejects, `is_builtin` never returns 1 and
never returns a changed table; and whenever the call `isdigit(cmd)` of
`is_assign_var` returns, `is_assign_var` and `is_builtin` return 0 with the table
unchanged and `do_command` hands the command to `execute`, returning its raw
status shifted right by 8. -/
theorem is_builtin_invalid_assignment (ext : Externals) (tab : Table) (cmd : CStr)
    (rest : List CStr) (r : Int)
    (heq : '=' ∈ cmd)
    (hname : okname (cmd.takeWhile (fun c => c != '=')) = 0) :
    (∀ (x r1 : Int) (t : Table),
      is_builtin ext tab cmd rest r = Outcome.returned (x, r1, t) → x = 0 ∧ t = tab) ∧
    (∀ b : Bool, ext.isdigit_cmd = some b →
      (∃ r1, is_assign_var ext.isdigit_cmd tab cmd r = Outcome.returned (0, r1, tab) ∧
        is_builtin ext tab cmd rest r = Outcome.returned (0, r1, tab)) ∧
      do_command ext tab cmd rest r
        = Outcome.returned
            (ext.wait_status (environ_of tab) (cmd :: rest) >>> (8 : Nat), tab)) := by
  have hret : ∀ b : Bool, ext.isdigit_cmd = some b →
      ∃ r1, is_assign_var ext.isdigit_cmd tab cmd r = Outcome.returned (0, r1, tab) ∧
        is_builtin ext tab cmd rest r = Outcome.returned (0, r1, tab) := by
    intro b hb
    obtain ⟨r1, ha⟩ := is_assign_var_invalid b tab cmd r hname
    rw [← hb] at ha
    exact ⟨r1, ha, is_builtin_other ext tab tab cmd rest r r1 ha
      (ne_of_mem_eq cmd _ heq (by decide)) (ne_of_mem_eq cmd _ heq (by decide))
      (ne_of_mem_eq cmd _ heq (by decide)) (ne_of_mem_eq cmd _ heq (by decide))
      (ne_of_mem_eq cmd _ heq (by decide)) (ne_of_mem_eq cmd _ heq (by decide))⟩
  constructor
  · intro x r1 t hx
    cases hd : ext.isdigit_cmd with
    | none =>
      have hk := is_assign_var_killed tab cmd r heq
      rw [← hd] at hk
      rw [is_builtin_killed ext tab cmd rest r hk] at hx
      cases hx
    | some b =>
      obtain ⟨r2, _, hb2⟩ := hret b hd
      rw [hb2] at hx
      have h1 := Outcome.returned.inj hx
      simp only [Prod.mk.injEq] at h1
      exact ⟨h1.1.symm, h1.2.2.symm⟩
  · intro b hb
    obtain ⟨r1, ha, hb2⟩ := hret b hb
    exact ⟨⟨r1, ha, hb2⟩, do_command_other ext tab tab cmd rest r r1 hb2⟩

/-- C13, amended, at the instances of the claim, `1x=3` and `=v`, with
`isdigit(cmd)` returning zero. -/
theorem is_builtin_invalid_assignment_witness :
    do_command (returning_externals false 256) emptyTable "1x=3".toList [] 0
        = Outcome.returned (1, emptyTable) ∧
      do_command (returning_externals false 256) emptyTable "=v".toList [] 0
        = Outcome.returned (1, emptyTable) :=
  ⟨((is_builtin_invalid_assignment (returning_externals false 256) emptyTable
        "1x=3".toList [] 0 (by decide) (by decide)).2 false rfl).2,
    ((is_builtin_invalid_assignment (returning_externals false 256) emptyTable
        "=v".toList [] 0 (by decide) (by decide)).2 false rfl).2⟩

/-- C19 as stated fails: for the command `ls`, no builtin, whose child ends with
raw wait status 256 (exit code 1), `do_command` returns 1, not 256 mod 256 = 0. -/
theorem do_command_status_counterexample :
    do_command (plain_externals 256) emptyTable "ls".toList [] 0
        = Outcome.returned (1, emptyTable) ∧
      (1 : Int) ≠ 256 % 256 := by
  constructor
  · rfl
  · decide

/-- C19, amended: for a command that `is_builtin` does not take (it returns 0) and
whose raw wait status reported by `execute` is `raw`, `do_command` returns
`raw >> 8`, the floor of `raw / 256`: the exit code of a child that ended by
itself, and -1 when `execute` reports -1. -/
theorem do_command_status (ext : Externals) (tab tab1 : Table) (cmd : CStr)
    (rest : List CStr) (rv r raw : Int)
    (hb : is_builtin ext tab cmd rest rv = Outcome.returned (0, r, tab1))
    (hraw : execute ext tab1 (cmd :: rest) = raw) :
    do_command ext tab cmd rest rv = Outcome.returned (raw >>> (8 : Nat), tab1) ∧
      raw >>> (8 : Nat) = raw / 256 := by
  have h := do_command_other ext tab tab1 cmd rest rv r hb
  have he : execute ext tab1 (cmd :: rest) = ext.wait_status (environ_of tab1) (cmd :: rest) := by
    simp [execute]
  rw [he] at hraw
  rw [h, hraw]
  exact ⟨rfl, by simpa using Int.shiftRight_eq_div_pow raw 8⟩

/-- C19, amended, at instances: raw status 768 (exit code 3) gives 3, and raw
status -1 gives -1. -/
theorem do_command_status_witness :
    do_command (plain_externals 768) emptyTable "ls".toList [] 0
        = Outcome.returned (3, emptyTable) ∧
      do_command (plain_externals (-1)) emptyTable "ls".toList [] 0
        = Outcome.returned (-1, emptyTable) :=
  ⟨(do_command_status (plain_externals 768) emptyTable emptyTable "ls".toList [] 0 0 768
      rfl rfl).1,
    (do_command_status (plain_externals (-1)) emptyTable emptyTable "ls".toList [] 0 0 (-1)
      rfl rfl).1⟩

/-! ## Lemmas on `strtol` -/

theorem takeWhile_digits (ds rest : CStr) (hds : ∀ c ∈ ds, c.isDigit = true)
    (hrest : ∀ c ∈ rest.head?, c.isDigit = false) :
    (ds ++ rest).takeWhile Char.isDigit = ds ∧ (ds ++ rest).dropWhile Char.isDigit = rest := by
  induction ds with
  | nil =>
    cases rest with
    | nil => simp
    | cons c rest =>
      have hc := hrest c (by simp)
      simp [List.takeWhile, List.dropWhile, hc]
  | cons d ds ih =>
    have hd := hds d (List.mem_cons_self d ds)
    have ih2 := ih (fun c hc => hds c (List.mem_cons_of_mem d hc))
    simp [List.takeWhile, List.dropWhile, hd, ih2.1, ih2.2]

theorem digit_not_space_sign (d : Char) (hd : d.isDigit = true) :
    isspace d = false ∧ d ≠ '-' ∧ d ≠ '+' := by
  refine ⟨?_, ?_, ?_⟩
  · have h : ¬ (isspace d = true) := by
      intro hs
      simp only [isspace, Bool.or_eq_true, beq_iff_eq] at hs
      rcases hs with ((((h | h) | h) | h) | h) | h <;> subst h <;> revert hd <;> decide
    simpa using h
  · intro h; subst h; revert hd; decide
  · intro h; subst h; revert hd; decide

theorem strtol_sign_none (c : Char) (s : CStr) (hm : c ≠ '-') (hp : c ≠ '+') :
    strtol_sign (c :: s) = (false, c :: s) := by
  unfold strtol_sign
  split
  · next u heq => exact absurd (List.cons.inj heq).1 hm
  · next u heq => exact absurd (List.cons.inj heq).1 hp
  · rfl

/-- `strtol` on a string that starts with a character that is neither white
space nor a sign: the value of the leading digits, `endptr` behind them. -/
theorem strtol_unsigned (c : Char) (s : CStr)
    (hsp : isspace c = false) (hm : c ≠ '-') (hp : c ≠ '+') :
    strtol (c :: s)
      = if ((c :: s).takeWhile Char.isDigit).isEmpty then (0, c :: s)
        else (max LONG_MIN (min LONG_MAX (digits_value ((c :: s).takeWhile Char.isDigit) : Int)),
              (c :: s).dropWhile Char.isDigit) := by
  have ht : (c :: s).dropWhile isspace = c :: s := by simp [List.dropWhile, hsp]
  simp only [strtol, ht, strtol_sign_none c s hm hp]
  simp

/-- `strtol` on a non-empty string of digits: all of it is consumed. -/
theorem strtol_digits (arg : CStr) (hne : arg ≠ []) (hds : ∀ c ∈ arg, c.isDigit = true) :
    strtol arg = (max LONG_MIN (min LONG_MAX (digits_value arg : Int)), []) := by
  cases arg with
  | nil => exact absurd rfl hne
  | cons d ds =>
    have hd := digit_not_space_sign d (hds d (List.mem_cons_self d ds))
    have htw := takeWhile_digits (d :: ds) [] hds (by simp)
    simp only [List.append_nil] at htw
    rw [strtol_unsigned d ds hd.1 hd.2.1 hd.2.2, htw.1, htw.2]
    simp

/-- `strtol` on `-` followed by a non-empty string of digits. -/
theorem strtol_minus_digits (ds : CStr) (hne : ds ≠ []) (hds : ∀ c ∈ ds, c.isDigit = true) :
    strtol ('-' :: ds) = (max LONG_MIN (min LONG_MAX (-(digits_value ds : Int))), []) := by
  have htw := takeWhile_digits ds [] hds (by simp)
  simp only [List.append_nil] at htw
  have hsp : isspace '-' = false := by decide
  have ht : ('-' :: ds).dropWhile isspace = '-' :: ds := by simp [List.dropWhile, hsp]
  have hsg : strtol_sign ('-' :: ds) = (true, ds) := rfl
  simp only [strtol, ht, hsg, htw.1, htw.2]
  cases ds with
  | nil => exact absurd rfl hne
  | cons d ds => simp

theorem long_to_int_small (v : Int) (h1 : -(2 ^ 31) ≤ v) (h2 : v < 2 ^ 31) :
    long_to_int (max LONG_MIN (min LONG_MAX v)) = v := by
  have e1 : min LONG_MAX v = v := by
    apply min_eq_right
    unfold LONG_MAX
    omega
  have e2 : max LONG_MIN v = v := by
    apply max_eq_right
    unfold LONG_MIN
    omega
  rw [e1, e2]
  unfold long_to_int
  omega

/-- `strtol` reads an argument to its end exactly when the argument is of the
accepted form, and then returns the number it denotes, clamped to `long`. -/
theorem strtol_whole (arg : CStr) :
    (exit_argument_ok arg = true →
      strtol arg = (max LONG_MIN (min LONG_MAX (exit_argument_value arg)), [])) ∧
    (exit_argument_ok arg = false → (strtol arg).2 ≠ []) := by
  cases arg with
  | nil =>
    constructor
    · intro _; decide
    · intro h; simp [exit_argument_ok] at h
  | cons c cs =>
    have hok : exit_argument_ok (c :: cs)
        = purely_numeric (strtol_sign ((c :: cs).dropWhile isspace)).2 := by
      simp [exit_argument_ok]
    rw [hok]
    generalize hsg : strtol_sign ((c :: cs).dropWhile isspace) = sg
    have hst : strtol (c :: cs)
        = if (sg.2.takeWhile Char.isDigit).isEmpty then (0, c :: cs)
          else (max LONG_MIN (min LONG_MAX
                  (if sg.1 then -(digits_value (sg.2.takeWhile Char.isDigit) : Int)
                   else (digits_value (sg.2.takeWhile Char.isDigit) : Int))),
                sg.2.dropWhile Char.isDigit) := by
      simp only [strtol, hsg]
    have hval : exit_argument_value (c :: cs)
        = if sg.1 then -(digits_value sg.2 : Int) else (digits_value sg.2 : Int) := by
      simp only [exit_argument_value, hsg]
    constructor
    · intro hp
      simp only [purely_numeric, Bool.and_eq_true, Bool.not_eq_true', List.all_eq_true] at hp
      have htw : sg.2.takeWhile Char.isDigit = sg.2 := List.takeWhile_eq_self_iff.2 hp.2
      have hdw : sg.2.dropWhile Char.isDigit = [] := List.dropWhile_eq_nil_iff.2 hp.2
      rw [hst, htw, hdw, hval, hp.1]
      simp
    · intro hp
      rw [hst]
      by_cases hds : (sg.2.takeWhile Char.isDigit).isEmpty = true
      · simp [hds]
      · simp only [hds]
        have hne : sg.2.takeWhile Char.isDigit ≠ [] := by
          intro e; rw [e] at hds; exact hds rfl
        intro hdw
        have hall : ∀ x ∈ sg.2, Char.isDigit x = true := List.dropWhile_eq_nil_iff.1 hdw
        have hu : sg.2 ≠ [] := by
          intro e; rw [e] at hne; exact hne rfl
        have hpn : purely_numeric sg.2 = true := by
          simp only [purely_numeric, Bool.and_eq_true, Bool.not_eq_true', List.all_eq_true]
          exact ⟨by cases hsg2 : sg.2 with
                    | nil => exact absurd hsg2 hu
                    | cons d ds => rfl, hall⟩
        rw [hpn] at hp
        cases hp

theorem exec_exit_one (arg : CStr) :
    exec_exit [arg]
      = if exit_argument_ok arg then
          Outcome.exited (long_to_int (max LONG_MIN (min LONG_MAX (exit_argument_value arg))))
        else Outcome.returned (-1) := by
  by_cases h : exit_argument_ok arg = true
  · simp [exec_exit, (strtol_whole arg).1 h, h]
  · have h : exit_argument_ok arg = false := by simpa using h
    have hne := (strtol_whole arg).2 h
    have hlen : (strtol arg).2.length > 0 := List.length_pos.2 hne
    simp [exec_exit, hlen, h]

/-- A purely numeric argument is of the accepted form and denotes the value of
its digits. -/
theorem purely_numeric_ok (arg : CStr) (h : purely_numeric arg = true) :
    exit_argument_ok arg = true ∧ exit_argument_value arg = (digits_value arg : Int) := by
  cases arg with
  | nil => simp [purely_numeric] at h
  | cons d ds =>
    have hall : ∀ c ∈ d :: ds, c.isDigit = true := by
      simp only [purely_numeric, Bool.and_eq_true, List.all_eq_true] at h
      exact h.2
    have hd := digit_not_space_sign d (hall d (List.mem_cons_self d ds))
    have ht : (d :: ds).dropWhile isspace = d :: ds := by simp [List.dropWhile, hd.1]
    have hsg := strtol_sign_none d ds hd.2.1 hd.2.2
    constructor
    · simp only [exit_argument_ok, ht, hsg, h]
      simp
    · simp only [exit_argument_value, ht, hsg]
      simp

theorem seen_status_long (v : Int) (h1 : LONG_MIN ≤ v) (h2 : v ≤ LONG_MAX) :
    seen_status (long_to_int (max LONG_MIN (min LONG_MAX v))) = v % 256 := by
  rw [min_eq_right h2, max_eq_right h1]
  unfold seen_status long_to_int
  omega

/-! ## Theorems on `exit` -/

/-- C20 as stated fails three times: the argument `-5`, which is not purely
numeric, makes `exec_exit` exit (it calls `exit(-5)`); the purely numeric argument
`2147483648` makes it call `exit(-2147483648)`; and for the purely numeric
argument `256` it calls `exit(256)`, of which the environment sees status 0. -/
theorem exec_exit_counterexample :
    exec_exit ["-5".toList] = Outcome.exited (-5) ∧
      exec_exit ["2147483648".toList] = Outcome.exited (-2147483648) ∧
      exec_exit ["256".toList] = Outcome.exited 256 ∧ seen_status 256 = 0 := by
  decide

/-- C20, amended: `exec_exit` ends the interpreter if and only if its argument
list is empty or is one argument of the accepted form (the empty string, or
optional white space, an optional sign and a non-empty string of decimal digits).
With no argument it calls `exit(0)`; with one accepted argument denoting the
signed number `v` it calls `exit` with `v` clamped to `long` and converted to
`int`, which is `exit(N)` for a purely numeric argument denoting `N < 2^31`; the
environment then sees `v mod 256` whenever `v` is in the range of `long`.  With
two or more arguments, or with one argument not of the accepted form, it returns
-1 without exiting. -/
theorem exec_exit_cases :
    exec_exit [] = Outcome.exited 0 ∧
    (∀ (a b : CStr) (rest : List CStr), exec_exit (a :: b :: rest) = Outcome.returned (-1)) ∧
    (∀ arg : CStr, exit_argument_ok arg = true →
      exec_exit [arg]
        = Outcome.exited
            (long_to_int (max LONG_MIN (min LONG_MAX (exit_argument_value arg))))) ∧
    (∀ arg : CStr, exit_argument_ok arg = false → exec_exit [arg] = Outcome.returned (-1)) ∧
    (∀ args : List CStr,
      (∃ n, exec_exit args = Outcome.exited n) ↔
        (args = [] ∨ ∃ arg, args = [arg] ∧ exit_argument_ok arg = true)) ∧
    (∀ arg : CStr, purely_numeric arg = true →
      exit_argument_ok arg = true ∧ exit_argument_value arg = (digits_value arg : Int)) ∧
    (∀ arg : CStr, purely_numeric arg = true → digits_value arg < 2 ^ 31 →
      exec_exit [arg] = Outcome.exited (digits_value arg : Int)) ∧
    (∀ v : Int, LONG_MIN ≤ v → v ≤ LONG_MAX →
      seen_status (long_to_int (max LONG_MIN (min LONG_MAX v))) = v % 256) := by
  refine ⟨rfl, fun _ _ _ => rfl, ?_, ?_, ?_, purely_numeric_ok, ?_, seen_status_long⟩
  · intro arg h
    rw [exec_exit_one, h]
    simp
  · intro arg h
    rw [exec_exit_one, h]
    simp
  · intro args
    cases args with
    | nil => simp [exec_exit]
    | cons a more =>
      cases more with
      | nil =>
        rw [exec_exit_one]
        cases h : exit_argument_ok a <;> simp [h]
      | cons b rest =>
        constructor
        · rintro ⟨n, hn⟩
          simp [exec_exit] at hn
        · rintro (h | ⟨arg, h, _⟩)
          · cases h
          · cases h
  · intro arg hp hN
    have hok := purely_numeric_ok arg hp
    rw [exec_exit_one, hok.1, hok.2]
    have hv : long_to_int (max LONG_MIN (min LONG_MAX (digits_value arg : Int)))
        = (digits_value arg : Int) :=
      long_to_int_small _ (by omega) (by exact_mod_cast hN)
    simp [hv]

/-- C20, amended, at instances: `exit 3`, `exit -5` and `exit +5` exit; `exit 5
foo`, `exit 5x`, `exit x`, `exit -x`, `exit -5x` and `exit -` return -1; after
`exit -5` the environment sees 251. -/
theorem exec_exit_cases_witness :
    exec_exit ["3".toList] = Outcome.exited 3 ∧
    exec_exit ["-5".toList] = Outcome.exited (-5) ∧
    exec_exit ["+5".toList] = Outcome.exited 5 ∧
    exec_exit ["5".toList, "foo".toList] = Outcome.returned (-1) ∧
    exec_exit ["5x".toList] = Outcome.returned (-1) ∧
    exec_exit ["x".toList] = Outcome.returned (-1) ∧
    exec_exit ["-x".toList] = Outcome.returned (-1) ∧
    exec_exit ["-5x".toList] = Outcome.returned (-1) ∧
    exec_exit ["-".toList] = Outcome.returned (-1) ∧
    seen_status (long_to_int (max LONG_MIN (min LONG_MAX (-5)))) = 251 :=
  ⟨exec_exit_cases.2.2.2.2.2.2.1 "3".toList (by decide) (by decide),
    exec_exit_cases.2.2.1 "-5".toList (by decide),
    exec_exit_cases.2.2.1 "+5".toList (by decide),
    exec_exit_cases.2.1 "5".toList "foo".toList [],
    exec_exit_cases.2.2.2.1 "5x".toList (by decide),
    exec_exit_cases.2.2.2.1 "x".toList (by decide),
    exec_exit_cases.2.2.2.1 "-x".toList (by decide),
    exec_exit_cases.2.2.2.1 "-5x".toList (by decide),
    exec_exit_cases.2.2.2.1 "-".toList (by decide),
    exec_exit_cases.2.2.2.2.2.2.2 (-5) (by decide) (by decide)⟩

/-! ## More lemmas on the table -/

/-- What the loop of `find_item` has seen when it ends at `(j, b)`: every slot
before `j` is occupied by a string that does not match; with `b` the slot `j`
matches; without `b` the loop ran to its bound or stands on a free slot. -/
theorem find_item_scan_spec (tab : Table) (name : CStr) :
    ∀ (n i j : Nat) (b : Bool), find_item_scan tab name n i = (j, b) →
      i ≤ j ∧ j ≤ i + n ∧
      (∀ k, i ≤ k → k < j → ∃ s, (tab k).str = some s ∧ entry_matches s name = false) ∧
      (b = true → j < i + n ∧ ∃ s, (tab j).str = some s ∧ entry_matches s name = true) ∧
      (b = false → j = i + n ∨ (tab j).str = none) := by
  intro n
  induction n with
  | zero =>
    intro i j b h
    simp only [find_item_scan, Prod.mk.injEq] at h
    obtain ⟨h1, h2⟩ := h
    subst h1
    subst h2
    refine ⟨le_refl _, le_refl _, ?_, ?_, ?_⟩
    · intro k hk1 hk2; omega
    · intro hb; cases hb
    · intro _; exact Or.inl rfl
  | succ n ih =>
    intro i j b h
    unfold find_item_scan at h
    cases hstr : (tab i).str with
    | none =>
      simp only [hstr, Prod.mk.injEq] at h
      obtain ⟨h1, h2⟩ := h
      subst h1
      subst h2
      refine ⟨le_refl _, by omega, ?_, ?_, ?_⟩
      · intro k hk1 hk2; omega
      · intro hb; cases hb
      · intro _; exact Or.inr hstr
    | some t =>
      simp only [hstr] at h
      by_cases hm : entry_matches t name = true
      · simp only [hm, if_true, Prod.mk.injEq] at h
        obtain ⟨h1, h2⟩ := h
        subst h1
        subst h2
        refine ⟨le_refl _, by omega, ?_, ?_, ?_⟩
        · intro k hk1 hk2; omega
        · intro _; exact ⟨by omega, t, hstr, hm⟩
        · intro hb; cases hb
      · have hm : entry_matches t name = false := by simpa using hm
        simp only [hm] at h
        have h : find_item_scan tab name n (i + 1) = (j, b) := by simpa using h
        obtain ⟨h1, h2, h3, h4, h5⟩ := ih (i + 1) j b h
        refine ⟨by omega, by omega, ?_, ?_, ?_⟩
        · intro k hk1 hk2
          by_cases hki : k = i
          · subst hki; exact ⟨t, hstr, hm⟩
          · exact h3 k (by omega) hk2
        · intro hb
          obtain ⟨h6, h7⟩ := h4 hb
          exact ⟨by omega, h7⟩
        · intro hb
          rcases h5 hb with h6 | h6
          · left; omega
          · right; exact h6

theorem find_item_eq_of_scan (tab : Table) (name : CStr) (j : Nat) (fb : Bool)
    (h : find_item_scan tab name MAXVARS 0 = (j, true)) :
    find_item tab name fb = some j := by
  simp [find_item, h]

theorem scan_of_find_item_false (tab : Table) (name : CStr) (i : Nat)
    (h : find_item tab name false = some i) :
    find_item_scan tab name MAXVARS 0 = (i, true) := by
  unfold find_item at h
  rcases hsc : find_item_scan tab name MAXVARS 0 with ⟨j, b⟩
  rw [hsc] at h
  cases b with
  | true => simp at h; rw [h]
  | false => simp at h

theorem scan_of_find_item_none (tab : Table) (name : CStr)
    (h : find_item tab name false = none) :
    ∃ j, find_item_scan tab name MAXVARS 0 = (j, false) := by
  unfold find_item at h
  rcases hsc : find_item_scan tab name MAXVARS 0 with ⟨j, b⟩
  rw [hsc] at h
  cases b with
  | true => simp at h
  | false => exact ⟨j, rfl⟩

/-- A bound name is found by both kinds of search, at the same slot. -/
theorem find_item_true_of_false (tab : Table) (name : CStr) (i : Nat)
    (h : find_item tab name false = some i) : find_item tab name true = some i :=
  find_item_eq_of_scan tab name i true (scan_of_find_item_false tab name i h)

/-- After `VLstore` has written the slot `find_item(name, 1)` gave, `find_item`
gives that slot for `name`. -/
theorem find_item_after_store (tab : Table) (name val : CStr) (i : Nat) (g fb : Bool)
    (h : find_item tab name true = some i) :
    find_item (setSlot tab i { str := some (new_string name val), global := g }) name fb
      = some i := by
  obtain ⟨b, hsc, hb⟩ := find_item_true_lt tab name i h
  exact find_item_eq_of_scan _ name i fb
    (find_item_scan_setSlot tab name
      { str := some (new_string name val), global := g } (new_string name val) rfl
      (entry_matches_new_string name val) MAXVARS 0 i b hsc hb)

/-- For an unbound name, `find_item(name, 1)` gives the first free slot. -/
theorem find_item_first_free (tab : Table) (name : CStr) (j : Nat)
    (hj : j < MAXVARS) (hfree : (tab j).str = none) (hbefore : ∀ k, k < j → (tab k).str ≠ none)
    (hunbound : find_item tab name false = none) :
    find_item tab name true = some j := by
  obtain ⟨j1, hsc⟩ := scan_of_find_item_none tab name hunbound
  obtain ⟨_, h2, h3, _, h5⟩ := find_item_scan_spec tab name MAXVARS 0 j1 false hsc
  have hj1 : j1 = j := by
    rcases Nat.lt_trichotomy j1 j with hlt | heq | hgt
    · rcases h5 rfl with h6 | h6
      · omega
      · exact absurd h6 (hbefore j1 hlt)
    · exact heq
    · obtain ⟨s, hs, _⟩ := h3 j (Nat.zero_le _) hgt
      rw [hfree] at hs
      cases hs
  subst hj1
  simp [find_item, hsc, hj]

/-- In a table without a free slot, `find_item(name, 1)` finds nothing for an
unbound name. -/
theorem find_item_full (tab : Table) (name : CStr)
    (hfull : ∀ i, i < MAXVARS → (tab i).str ≠ none)
    (hunbound : find_item tab name false = none) :
    find_item tab name true = none := by
  obtain ⟨j1, hsc⟩ := scan_of_find_item_none tab name hunbound
  obtain ⟨_, h2, _, _, h5⟩ := find_item_scan_spec tab name MAXVARS 0 j1 false hsc
  have hj1 : ¬ j1 < MAXVARS := by
    intro hlt
    rcases h5 rfl with h6 | h6
    · omega
    · exact hfull j1 hlt h6
  simp [find_item, hsc, hj1]

theorem setSlot_setSlot (tab : Table) (i : Nat) (v w : var) :
    setSlot (setSlot tab i v) i w = setSlot tab i w := by
  funext j
  by_cases h : j = i <;> simp [setSlot, h]

/-- `VLexport` of a bound name: one activation, the flag of its slot is set. -/
theorem VLexport_fuel_bound (tab : Table) (name : CStr) (i k : Nat)
    (h : find_item tab name false = some i) :
    VLexport_fuel (k + 1) tab name
      = some (0, setSlot tab i { str := (tab i).str, global := true }) := by
  simp [VLexport_fuel, h]

/-- `VLexport` of an unbound name when `VLstore` finds a slot: the name is stored
with the empty value, and the one nested call sets the flag. -/
theorem VLexport_fuel_unbound (tab : Table) (name : CStr) (j k : Nat)
    (hunbound : find_item tab name false = none) (hslot : find_item tab name true = some j) :
    VLexport_fuel (k + 2) tab name
      = some (0, setSlot tab j { str := some (new_string name []), global := true }) ∧
    VLexport_fuel 1 tab name = none := by
  have hstore : VLstore tab name []
      = (0, setSlot tab j { str := some (new_string name []), global := (tab j).global }) := by
    simp [VLstore, hslot]
  have hfound := find_item_after_store tab name [] j (tab j).global false hslot
  constructor
  · rw [VLexport_fuel]
    simp only [hunbound, hstore, if_true]
    rw [VLexport_fuel_bound _ name j k hfound, setSlot_setSlot]
    simp [setSlot]
  · simp [VLexport_fuel, hunbound, hstore]

/-- `VLexport` of an unbound name when `VLstore` fails: 1, nothing changes. -/
theorem VLexport_fuel_failed (tab : Table) (name : CStr) (k : Nat)
    (hunbound : find_item tab name false = none) (hslot : find_item tab name true = none) :
    VLexport_fuel (k + 1) tab name = some (1, tab) := by
  simp [VLexport_fuel, hunbound, VLstore, hslot]

/-- Two activations of `VLexport` always suffice: it makes at most one nested
call. -/
theorem VLexport_fuel_two (tab : Table) (name : CStr) :
    VLexport_fuel 2 tab name = some (VLexport tab name) := by
  unfold VLexport
  cases h0 : find_item tab name false with
  | some i => rw [VLexport_fuel_bound tab name i 1 h0]; rfl
  | none =>
    cases h1 : find_item tab name true with
    | some j => rw [(VLexport_fuel_unbound tab name j 0 h0 h1).1]; rfl
    | none => rw [VLexport_fuel_failed tab name 1 h0 h1]; rfl

/-! ## More theorems on the variable store -/

/-- C14: when `name` is unbound and `j` is the first free slot of the table,
`VLexport(name)` returns 0 and leaves the table with slot `j` holding `name=` (the
empty string as value) with its export flag set and every other slot as it was;
`name` is then found in slot `j` and looked up as the empty string.  Two
activations of `VLexport` do it and one does not: exactly one nested call. -/
theorem VLexport_creates (tab : Table) (name : CStr) (j : Nat)
    (hj : j < MAXVARS) (hfree : (tab j).str = none)
    (hbefore : ∀ k, k < j → (tab k).str ≠ none)
    (hunbound : find_item tab name false = none) :
    VLexport tab name
        = (0, setSlot tab j { str := some (name ++ ['=']), global := true }) ∧
      (∀ i, i ≠ j → (VLexport tab name).2 i = tab i) ∧
      find_item (VLexport tab name).2 name false = some j ∧
      VLlookup (VLexport tab name).2 name = [] ∧
      VLexport_fuel 2 tab name = some (VLexport tab name) ∧
      VLexport_fuel 1 tab name = none := by
  have hslot := find_item_first_free tab name j hj hfree hbefore hunbound
  have hfuel := VLexport_fuel_unbound tab name j 0 hunbound hslot
  have hval : VLexport tab name
      = (0, setSlot tab j { str := some (name ++ ['=']), global := true }) := by
    have h2 := VLexport_fuel_two tab name
    rw [hfuel.1] at h2
    have h3 := (Option.some.inj h2).symm
    simpa [new_string] using h3
  refine ⟨hval, ?_, ?_, ?_, VLexport_fuel_two tab name, hfuel.2⟩
  · intro i hi
    rw [hval]
    simp [setSlot, hi]
  · rw [hval]
    have h := find_item_after_store tab name [] j true false hslot
    simpa [new_string] using h
  · rw [hval]
    have h := VLlookup_after_store tab name [] j hslot true
    simpa [new_string] using h

/-- C14, at the spec's instance: `NEWVAR` exported on a table that holds only
`FOO=bar`; the first free slot is slot 1. -/
theorem VLexport_creates_witness :
    (VLexport (VLstore emptyTable "FOO".toList "bar".toList).2 "NEWVAR".toList).1 = 0 ∧
      (VLexport (VLstore emptyTable "FOO".toList "bar".toList).2 "NEWVAR".toList).2 1
        = { str := some "NEWVAR=".toList, global := true } ∧
      (VLexport (VLstore emptyTable "FOO".toList "bar".toList).2 "NEWVAR".toList).2 0
        = { str := some "FOO=bar".toList, global := false } := by
  have h := VLexport_creates (VLstore emptyTable "FOO".toList "bar".toList).2
    "NEWVAR".toList 1 (by decide) (by decide)
    (by intro k hk; have hk0 : k = 0 := by omega
        subst hk0; decide)
    (by decide)
  refine ⟨by rw [h.1], ?_, ?_⟩
  · rw [h.1]; decide
  · rw [h.2.1 0 (by decide)]; decide

/-- C16: in a table whose `MAXVARS` slots are all occupied, `VLstore(name, value)`
for an unbound name returns 1 and leaves the table as it is; for a name bound in
slot `i` it returns 0 and only replaces the string of slot `i` by `name=value`,
keeping its flag, after which `name` is looked up as `value`. -/
theorem VLstore_full (tab : Table) (name value : CStr)
    (hfull : ∀ i, i < MAXVARS → (tab i).str ≠ none) :
    (find_item tab name false = none → VLstore tab name value = (1, tab)) ∧
    (∀ i, find_item tab name false = some i →
      VLstore tab name value
          = (0, setSlot tab i { str := some (name ++ '=' :: value), global := (tab i).global }) ∧
        VLlookup (VLstore tab name value).2 name = value) := by
  constructor
  · intro hunbound
    simp [VLstore, find_item_full tab name hfull hunbound]
  · intro i hi
    have hslot := find_item_true_of_false tab name i hi
    have hval : VLstore tab name value
        = (0, setSlot tab i { str := some (name ++ '=' :: value), global := (tab i).global }) := by
      simp [VLstore, hslot, new_string]
    refine ⟨hval, ?_⟩
    rw [hval]
    exact VLlookup_after_store tab name value i hslot _

set_option maxRecDepth 100000 in
/-- C16, at instances on the table whose 200 slots hold `a`, `aa`, `aaa`, ...:
storing the unbound `b` fails, storing the bound `aaa` puts `aaa=new` in slot 2. -/
theorem VLstore_full_witness :
    VLstore full_table ['b'] "new".toList = (1, full_table) ∧
      (VLstore full_table "aaa".toList "new".toList).1 = 0 ∧
      VLlookup (VLstore full_table "aaa".toList "new".toList).2 "aaa".toList = "new".toList := by
  have hfull : ∀ i, i < MAXVARS → (full_table i).str ≠ none := by
    intro i _
    simp [full_table]
  have h := VLstore_full full_table
  refine ⟨(h ['b'] "new".toList hfull).1 (by decide), ?_, ?_⟩
  · rw [((h "aaa".toList "new".toList hfull).2 2 (by decide)).1]
  · exact ((h "aaa".toList "new".toList hfull).2 2 (by decide)).2

/-! ## Lemmas on names -/

theorem strncmp_eq_prefix (name : CStr) :
    ∀ s : CStr, strncmp_eq s name name.length = true → ∃ r, s = name ++ r := by
  induction name with
  | nil => intro s _; exact ⟨s, rfl⟩
  | cons d name ih =>
    intro s h
    cases s with
    | nil => simp [strncmp_eq] at h
    | cons c s =>
      simp only [List.length_cons, strncmp_eq] at h
      by_cases hcd : c = d
      · simp only [hcd, if_true] at h
        obtain ⟨r, hr⟩ := ih s h
        exact ⟨r, by rw [hcd, hr]; rfl⟩
      · simp [hcd] at h

/-- The test of `find_item` succeeds exactly on the strings that start with
`name=`. -/
theorem entry_matches_iff (s name : CStr) :
    entry_matches s name = true ↔ ∃ v, s = name ++ '=' :: v := by
  constructor
  · intro h
    simp only [entry_matches, Bool.and_eq_true, beq_iff_eq] at h
    obtain ⟨r, hr⟩ := strncmp_eq_prefix name s h.1
    have h2 := h.2
    rw [hr, List.getElem?_append_right (Nat.le_refl _)] at h2
    simp only [Nat.sub_self] at h2
    cases r with
    | nil => simp at h2
    | cons c r =>
      simp only [List.getElem?_cons_zero, Option.some.injEq] at h2
      exact ⟨r, by rw [hr, h2]⟩
  · rintro ⟨v, rfl⟩
    exact entry_matches_new_string name v

theorem entry_name_new_string (n v : CStr) (hn : '=' ∉ n) :
    entry_name (new_string n v) = n := by
  unfold entry_name new_string
  induction n with
  | nil => simp [List.takeWhile]
  | cons c n ih =>
    have hc : c ≠ '=' := fun e => hn (by simp [e])
    have hn2 : '=' ∉ n := fun e => hn (List.mem_cons_of_mem c e)
    have hb : (c != '=') = true := by simpa using hc
    simp only [List.cons_append, List.takeWhile_cons, hb, if_true]
    rw [ih hn2]

theorem entry_name_append_dropWhile (t : CStr) (ht : '=' ∈ t) :
    ∃ w, t = entry_name t ++ '=' :: w := by
  unfold entry_name
  induction t with
  | nil => simp at ht
  | cons c t ih =>
    by_cases hc : c = '='
    · subst hc
      exact ⟨t, by simp [List.takeWhile]⟩
    · have ht2 : '=' ∈ t := by
        rcases List.mem_cons.1 ht with h | h
        · exact absurd h.symm hc
        · exact h
      obtain ⟨w, hw⟩ := ih ht2
      refine ⟨w, ?_⟩
      have hb : (c != '=') = true := by simpa using hc
      simp only [List.takeWhile_cons, hb, if_true, List.cons_append]
      rw [← hw]

/-- An entry of the form `name=value` whose name is `name` passes the test of
`find_item` for `name`. -/
theorem entry_matches_of_name (t name : CStr) (ht : '=' ∈ t) (hn : entry_name t = name) :
    entry_matches t name = true := by
  obtain ⟨w, hw⟩ := entry_name_append_dropWhile t ht
  rw [hn] at hw
  exact (entry_matches_iff t name).2 ⟨w, hw⟩

/-- An entry that passes the test of `find_item` for a name without `=` has that
name. -/
theorem entry_name_of_matches (s name : CStr) (hn : '=' ∉ name)
    (h : entry_matches s name = true) : entry_name s = name := by
  obtain ⟨v, rfl⟩ := (entry_matches_iff s name).1 h
  exact entry_name_new_string name v hn

/-- The entry `VLstore(n, v)` writes does not pass the test for another name, when
neither name holds an `=`. -/
theorem new_string_no_match (n v name : CStr) (hn : '=' ∉ n) (hname : '=' ∉ name)
    (hne : n ≠ name) : entry_matches (new_string n v) name = false := by
  by_contra h
  have h : entry_matches (new_string n v) name = true := by simpa using h
  have h1 := entry_name_of_matches _ name hname h
  rw [entry_name_new_string n v hn] at h1
  exact hne h1

/-! ## Lemmas on the shape of the table -/

/-- What `VLstore` does to the table: nothing, or it writes `name=val` into the
slot `find_item(name, 1)` gave, keeping the flag. -/
theorem VLstore_shape (tab : Table) (name val : CStr) :
    (VLstore tab name val).2 = tab ∨
    ∃ i, find_item tab name true = some i ∧
      (VLstore tab name val).2
        = setSlot tab i { str := some (new_string name val), global := (tab i).global } := by
  unfold VLstore
  cases h : find_item tab name true with
  | none => exact Or.inl rfl
  | some i => exact Or.inr ⟨i, rfl, rfl⟩

/-- What `VLexport` does to the table: nothing, or it sets the flag of a slot, or
it writes `name=` with the flag set into the slot `find_item(name, 1)` gave. -/
theorem VLexport_shape (tab : Table) (name : CStr) :
    (VLexport tab name).2 = tab ∨
    (∃ i, (VLexport tab name).2 = setSlot tab i { str := (tab i).str, global := true }) ∨
    ∃ j, find_item tab name true = some j ∧
      (VLexport tab name).2
        = setSlot tab j { str := some (new_string name []), global := true } := by
  have h2 := VLexport_fuel_two tab name
  cases h0 : find_item tab name false with
  | some i =>
    rw [VLexport_fuel_bound tab name i 1 h0] at h2
    have h3 := Option.some.inj h2
    exact Or.inr (Or.inl ⟨i, by rw [← h3]⟩)
  | none =>
    cases h1 : find_item tab name true with
    | some j =>
      rw [(VLexport_fuel_unbound tab name j 0 h0 h1).1] at h2
      have h3 := Option.some.inj h2
      exact Or.inr (Or.inr ⟨j, rfl, by rw [← h3]⟩)
    | none =>
      rw [VLexport_fuel_failed tab name 1 h0 h1] at h2
      have h3 := Option.some.inj h2
      exact Or.inl (by rw [← h3])

theorem setSlot_flag_str (tab : Table) (i : Nat) (g : Bool) (k : Nat) :
    (setSlot tab i { str := (tab i).str, global := g } k).str = (tab k).str := by
  by_cases h : k = i
  · subst h; simp [setSlot]
  · simp [setSlot, h]

theorem entry_count_congr (tab tab1 : Table) (h : ∀ k, (tab1 k).str = (tab k).str) :
    ∀ n, entry_count tab1 n = entry_count tab n := by
  intro n
  induction n with
  | zero => rfl
  | succ n ih => simp [entry_count, ih, h n]

theorem entry_count_setSlot (tab : Table) (i : Nat) (s : CStr) (g : Bool) :
    ∀ n, entry_count (setSlot tab i { str := some s, global := g }) n
      = entry_count tab n + (if i < n ∧ (tab i).str = none then 1 else 0) := by
  intro n
  induction n with
  | zero => simp [entry_count]
  | succ n ih =>
    simp only [entry_count, ih]
    by_cases hni : n = i
    · subst hni
      cases hstr : (tab n).str with
      | none => simp [setSlot, hstr]
      | some t => simp [setSlot, hstr]
    · have h1 : (setSlot tab i { str := some s, global := g } n) = tab n := by
        simp [setSlot, hni]
      have h2 : (i < n + 1) ↔ (i < n) := by
        constructor
        · intro h; omega
        · intro h; omega
      simp only [h1, h2]
      omega

/-- A table with the same strings has the same properties. -/
theorem invariant_congr (tab tab1 : Table) (h : ∀ k, (tab1 k).str = (tab k).str)
    (hc : contiguous tab) (he : entries_have_eq tab) (hd : distinct_names tab) :
    contiguous tab1 ∧ entries_have_eq tab1 ∧ distinct_names tab1 := by
  refine ⟨?_, ?_, ?_⟩
  · intro a b hab hb ha
    rw [h] at ha ⊢
    exact hc a b hab hb ha
  · intro a s ha hs
    rw [h] at hs
    exact he a s ha hs
  · intro a b s t ha hb hs ht hst
    rw [h] at hs ht
    exact hd a b s t ha hb hs ht hst

/-- Writing `name=v` into the slot that `find_item(name, 1)` gave keeps the table
contiguous, its entries of the form `name=value` and their names distinct. -/
theorem invariant_upsert (tab : Table) (name v : CStr) (i : Nat) (g : Bool)
    (hslot : find_item tab name true = some i) (hname : '=' ∉ name)
    (hc : contiguous tab) (he : entries_have_eq tab) (hd : distinct_names tab) :
    contiguous (setSlot tab i { str := some (new_string name v), global := g }) ∧
    entries_have_eq (setSlot tab i { str := some (new_string name v), global := g }) ∧
    distinct_names (setSlot tab i { str := some (new_string name v), global := g }) := by
  obtain ⟨b, hsc, hb⟩ := find_item_true_lt tab name i hslot
  obtain ⟨_, hle, hprev, hfound, hstop⟩ := find_item_scan_spec tab name MAXVARS 0 i b hsc
  have hi : i < MAXVARS := by
    rcases hb with hb | hb
    · have := (hfound hb).1; omega
    · omega
  -- every other entry with the name `name` is excluded
  have hother : ∀ c t, c < MAXVARS → c ≠ i → (tab c).str = some t → entry_name t ≠ name := by
    intro c t hcl hci hct hn
    have hm := entry_matches_of_name t name (he c t hcl hct) hn
    rcases Nat.lt_or_gt_of_ne hci with hlt | hgt
    · obtain ⟨u, hu, hu2⟩ := hprev c (Nat.zero_le _) hlt
      rw [hct] at hu
      cases hu
      rw [hm] at hu2
      cases hu2
    · cases b with
      | true =>
        obtain ⟨_, u, hu, hu2⟩ := hfound rfl
        have hnu := entry_name_of_matches u name hname hu2
        exact hci (hd c i t u hcl hi hct hu (by rw [hn, hnu]))
      | false =>
        rcases hstop rfl with h6 | h6
        · omega
        · have := hc i c (Nat.le_of_lt hgt) hcl h6
          rw [hct] at this
          cases this
  refine ⟨?_, ?_, ?_⟩
  · intro a c hac hcl ha
    have hai : a ≠ i := by
      intro e; subst e; simp [setSlot] at ha
    have ha2 : (tab a).str = none := by simpa [setSlot, hai] using ha
    have hia : i < a := by
      rcases Nat.lt_or_gt_of_ne hai with hlt | hgt
      · obtain ⟨u, hu, _⟩ := hprev a (Nat.zero_le _) hlt
        rw [ha2] at hu
        cases hu
      · exact hgt
    have hci : c ≠ i := by omega
    simpa [setSlot, hci] using hc a c hac hcl ha2
  · intro a s hal hs
    by_cases hai : a = i
    · subst hai
      simp only [setSlot, if_true, Option.some.injEq] at hs
      rw [← hs]
      simp [new_string]
    · exact he a s hal (by simpa [setSlot, hai] using hs)
  · intro a c s t hal hcl hs ht hst
    by_cases hai : a = i
    · by_cases hci : c = i
      · rw [hai, hci]
      · exfalso
        subst hai
        simp only [setSlot, if_true, Option.some.injEq] at hs
        have ht2 : (tab c).str = some t := by simpa [setSlot, hci] using ht
        rw [← hs, entry_name_new_string name v hname] at hst
        exact hother c t hcl hci ht2 hst.symm
    · have hs2 : (tab a).str = some s := by simpa [setSlot, hai] using hs
      by_cases hci : c = i
      · exfalso
        subst hci
        simp only [setSlot, if_true, Option.some.injEq] at ht
        rw [← ht, entry_name_new_string name v hname] at hst
        exact hother a s hal hai hs2 hst
      · have ht2 : (tab c).str = some t := by simpa [setSlot, hci] using ht
        exact hd a c s t hal hcl hs2 ht2 hst

theorem invariant_emptyTable :
    contiguous emptyTable ∧ entries_have_eq emptyTable ∧ distinct_names emptyTable := by
  refine ⟨?_, ?_, ?_⟩
  · intro a b _ _ _; rfl
  · intro a s _ hs; simp [emptyTable, blank] at hs
  · intro a b s t _ _ hs; simp [emptyTable, blank] at hs

/-- `VLstore` of a name without `=` keeps the table contiguous, its entries of the
form `name=value` and their names distinct. -/
theorem invariant_VLstore (tab : Table) (name value : CStr) (hname : '=' ∉ name)
    (h : contiguous tab ∧ entries_have_eq tab ∧ distinct_names tab) :
    contiguous (VLstore tab name value).2 ∧ entries_have_eq (VLstore tab name value).2 ∧
      distinct_names (VLstore tab name value).2 := by
  rcases VLstore_shape tab name value with h1 | ⟨i, hslot, h1⟩
  · rw [h1]; exact h
  · rw [h1]; exact invariant_upsert tab name value i _ hslot hname h.1 h.2.1 h.2.2

/-- `VLexport` of a name without `=` keeps the same three properties. -/
theorem invariant_VLexport (tab : Table) (name : CStr) (hname : '=' ∉ name)
    (h : contiguous tab ∧ entries_have_eq tab ∧ distinct_names tab) :
    contiguous (VLexport tab name).2 ∧ entries_have_eq (VLexport tab name).2 ∧
      distinct_names (VLexport tab name).2 := by
  rcases VLexport_shape tab name with h1 | ⟨i, h1⟩ | ⟨j, hslot, h1⟩
  · rw [h1]; exact h
  · rw [h1]
    exact invariant_congr tab _ (setSlot_flag_str tab i true) h.1 h.2.1 h.2.2
  · rw [h1]; exact invariant_upsert tab name [] j _ hslot hname h.1 h.2.1 h.2.2

theorem entry_count_VLstore (tab : Table) (name value : CStr) :
    entry_count tab MAXVARS ≤ entry_count (VLstore tab name value).2 MAXVARS ∧
      entry_count (VLstore tab name value).2 MAXVARS ≤ entry_count tab MAXVARS + 1 := by
  rcases VLstore_shape tab name value with h1 | ⟨i, _, h1⟩
  · rw [h1]; omega
  · rw [h1, entry_count_setSlot]
    split_ifs <;> omega

theorem entry_count_VLexport (tab : Table) (name : CStr) :
    entry_count tab MAXVARS ≤ entry_count (VLexport tab name).2 MAXVARS ∧
      entry_count (VLexport tab name).2 MAXVARS ≤ entry_count tab MAXVARS + 1 := by
  rcases VLexport_shape tab name with h1 | ⟨i, h1⟩ | ⟨j, _, h1⟩
  · rw [h1]; omega
  · rw [h1, entry_count_congr tab _ (setSlot_flag_str tab i true)]; omega
  · rw [h1, entry_count_setSlot]
    split_ifs <;> omega

/-- No entry passes the test of `find_item` for `name`: then `name` is unbound. -/
theorem find_item_none_of_no_match (tab : Table) (name : CStr)
    (h : ∀ i s, (tab i).str = some s → entry_matches s name = false) :
    find_item tab name false = none := by
  rcases hsc : find_item_scan tab name MAXVARS 0 with ⟨j, b⟩
  cases b with
  | true =>
    obtain ⟨_, s, hs, hm⟩ := (find_item_scan_spec tab name MAXVARS 0 j true hsc).2.2.2.1 rfl
    rw [h j s hs] at hm
    cases hm
  | false => simp [find_item, hsc]

theorem no_match_setSlot (tab : Table) (name s : CStr) (i : Nat) (g : Bool)
    (h : ∀ k t, (tab k).str = some t → entry_matches t name = false)
    (hs : entry_matches s name = false) :
    ∀ k t, (setSlot tab i { str := some s, global := g } k).str = some t →
      entry_matches t name = false := by
  intro k t hk
  by_cases hki : k = i
  · subst hki
    simp only [setSlot, if_true, Option.some.injEq] at hk
    rw [← hk]; exact hs
  · exact h k t (by simpa [setSlot, hki] using hk)

/-- A call with another name, neither name holding an `=`, adds no entry that
passes the test for `name`. -/
theorem no_match_run (tab : Table) (name : CStr) (c : StoreCall)
    (hc : '=' ∉ c.name) (hname : '=' ∉ name) (hne : c.name ≠ name)
    (h : ∀ k t, (tab k).str = some t → entry_matches t name = false) :
    ∀ k t, ((c.run tab) k).str = some t → entry_matches t name = false := by
  cases c with
  | vlstore n v =>
    simp only [StoreCall.name] at hc hne
    simp only [StoreCall.run]
    rcases VLstore_shape tab n v with h1 | ⟨i, _, h1⟩
    · rw [h1]; exact h
    · rw [h1]
      exact no_match_setSlot tab name _ i _ h (new_string_no_match n v name hc hname hne)
  | vlexport n =>
    simp only [StoreCall.name] at hc hne
    simp only [StoreCall.run]
    rcases VLexport_shape tab n with h1 | ⟨i, h1⟩ | ⟨j, _, h1⟩
    · rw [h1]; exact h
    · rw [h1]
      intro k t hk
      rw [setSlot_flag_str] at hk
      exact h k t hk
    · rw [h1]
      exact no_match_setSlot tab name _ j _ h (new_string_no_match n [] name hc hname hne)

theorem no_match_run_calls (name : CStr) (hname : '=' ∉ name) :
    ∀ (calls : List StoreCall) (tab : Table),
      (∀ c ∈ calls, '=' ∉ c.name) → (∀ c ∈ calls, c.name ≠ name) →
      (∀ k t, (tab k).str = some t → entry_matches t name = false) →
      ∀ k t, ((run_calls tab calls) k).str = some t → entry_matches t name = false := by
  intro calls
  induction calls with
  | nil => intro tab _ _ h; exact h
  | cons c calls ih =>
    intro tab hc hne h
    have h1 := no_match_run tab name c (hc c (List.mem_cons_self c calls)) hname
      (hne c (List.mem_cons_self c calls)) h
    exact ih (c.run tab) (fun d hd => hc d (List.mem_cons_of_mem c hd))
      (fun d hd => hne d (List.mem_cons_of_mem c hd)) h1

/-! ## Lemmas on `VLtable2environ` -/

theorem load_globals_range (tab : Table) :
    ∀ (n i : Nat),
      (∀ a b, i ≤ a → a ≤ b → b < i + n → (tab a).str = none → (tab b).str = none) →
      load_globals tab n i
        = (List.range' i n).filterMap
            (fun k => if (tab k).global then (tab k).str else none) := by
  intro n
  induction n with
  | zero => intro i _; rfl
  | succ n ih =>
    intro i hc
    rw [List.range'_succ, load_globals]
    cases hstr : (tab i).str with
    | none =>
      symm
      rw [List.filterMap_eq_nil_iff]
      intro a ha
      have ha2 : i ≤ a ∧ a < i + (n + 1) := by
        rcases List.mem_cons.1 ha with h | h
        · omega
        · have := List.mem_range'_1.1 h; omega
      have := hc i a (le_refl _) ha2.1 ha2.2 hstr
      simp [this]
    | some s =>
      have hrec := ih (i + 1) (fun a b ha hab hb => hc a b (by omega) hab (by omega))
      by_cases hg : (tab i).global = true
      · simp only [hg, if_true, List.filterMap_cons, hstr]
        rw [hrec]
      · have hg : (tab i).global = false := by simpa using hg
        simp only [hg, List.filterMap_cons]
        rw [hrec]
        simp

theorem load_globals_length (tab : Table) :
    ∀ (n i : Nat), (load_globals tab n i).length = count_globals tab n i := by
  intro n
  induction n with
  | zero => intro i; rfl
  | succ n ih =>
    intro i
    rw [load_globals, count_globals]
    cases hstr : (tab i).str with
    | none => rfl
    | some s =>
      by_cases hg : (tab i).global = true
      · simp [hg, ih, Nat.add_comm]
      · have hg : (tab i).global = false := by simpa using hg
        simp [hg, ih]

/-- The tables made from the empty one by store calls with names free of `=` are
contiguous, with entries of the form `name=value` and distinct names. -/
theorem invariant_run_calls :
    ∀ (calls : List StoreCall) (tab : Table), (∀ c ∈ calls, '=' ∉ c.name) →
      contiguous tab ∧ entries_have_eq tab ∧ distinct_names tab →
      contiguous (run_calls tab calls) ∧ entries_have_eq (run_calls tab calls) ∧
        distinct_names (run_calls tab calls) := by
  intro calls
  induction calls with
  | nil => intro tab _ h; exact h
  | cons c calls ih =>
    intro tab hc h
    have hc1 := hc c (List.mem_cons_self c calls)
    have h1 : contiguous (c.run tab) ∧ entries_have_eq (c.run tab) ∧
        distinct_names (c.run tab) := by
      cases c with
      | vlstore n v => exact invariant_VLstore tab n v hc1 h
      | vlexport n => exact invariant_VLexport tab n hc1 h
    exact ih (c.run tab) (fun d hd => hc d (List.mem_cons_of_mem c hd)) h1

/-- Writing a string into the slot `find_item(name, 1)` gave keeps the table
contiguous, whatever the name. -/
theorem contiguous_upsert (tab : Table) (name s : CStr) (i : Nat) (g : Bool)
    (hslot : find_item tab name true = some i) (hc : contiguous tab) :
    contiguous (setSlot tab i { str := some s, global := g }) := by
  obtain ⟨b, hsc, _⟩ := find_item_true_lt tab name i hslot
  obtain ⟨_, _, hprev, _, _⟩ := find_item_scan_spec tab name MAXVARS 0 i b hsc
  intro a c hac hcl ha
  have hai : a ≠ i := by
    intro e; subst e; simp [setSlot] at ha
  have ha2 : (tab a).str = none := by simpa [setSlot, hai] using ha
  have hia : i < a := by
    rcases Nat.lt_or_gt_of_ne hai with hlt | hgt
    · obtain ⟨u, hu, _⟩ := hprev a (Nat.zero_le _) hlt
      rw [ha2] at hu
      cases hu
    · exact hgt
  have hci : c ≠ i := by omega
  simpa [setSlot, hci] using hc a c hac hcl ha2

/-- Every table made from a contiguous one by `VLstore` and `VLexport` calls, with
any arguments, is contiguous. -/
theorem contiguous_run_calls :
    ∀ (calls : List StoreCall) (tab : Table), contiguous tab →
      contiguous (run_calls tab calls) := by
  intro calls
  induction calls with
  | nil => intro tab h; exact h
  | cons c calls ih =>
    intro tab h
    have h1 : contiguous (c.run tab) := by
      cases c with
      | vlstore n v =>
        simp only [StoreCall.run]
        rcases VLstore_shape tab n v with h1 | ⟨i, hslot, h1⟩
        · rw [h1]; exact h
        · rw [h1]; exact contiguous_upsert tab n _ i _ hslot h
      | vlexport n =>
        simp only [StoreCall.run]
        rcases VLexport_shape tab n with h1 | ⟨i, h1⟩ | ⟨j, hslot, h1⟩
        · rw [h1]; exact h
        · rw [h1]
          intro a b hab hb ha
          rw [setSlot_flag_str] at ha ⊢
          exact h a b hab hb ha
        · rw [h1]; exact contiguous_upsert tab n _ j _ hslot h
    exact ih (c.run tab) h1

/-! ## Theorems on the table as a whole -/

/-- C15: for every contiguous table (no occupied slot behind a free one),
`VLtable2environ` returns the strings of the slots whose export flag is set, in
table order, followed by the NULL terminator: each exported entry once, no local
entry; and the `count + 1` pointers allocated are exactly the ones written. -/
theorem VLtable2environ_exported (tab : Table) (hc : contiguous tab) :
    VLtable2environ tab = (exported_strings tab).map some ++ [none] ∧
      (VLtable2environ tab).length = count_globals tab MAXVARS 0 + 1 := by
  have h := load_globals_range tab MAXVARS 0
    (fun a b _ hab hb ha => hc a b hab (by omega) ha)
  constructor
  · unfold VLtable2environ exported_strings
    rw [h, List.range_eq_range']
  · unfold VLtable2environ
    simp [load_globals_length]

/-- C15, at an instance: `A` exported, `B` local, `C` exported. -/
theorem VLtable2environ_exported_witness :
    VLtable2environ (run_calls emptyTable
        [StoreCall.vlstore ['A'] ['1'], StoreCall.vlexport ['A'],
          StoreCall.vlstore ['B'] ['2'], StoreCall.vlexport ['C']])
      = (exported_strings (run_calls emptyTable
        [StoreCall.vlstore ['A'] ['1'], StoreCall.vlexport ['A'],
          StoreCall.vlstore ['B'] ['2'], StoreCall.vlexport ['C']])).map some ++ [none] ∧
    VLtable2environ (run_calls emptyTable
        [StoreCall.vlstore ['A'] ['1'], StoreCall.vlexport ['A'],
          StoreCall.vlstore ['B'] ['2'], StoreCall.vlexport ['C']])
      = [some "A=1".toList, some "C=".toList, none] :=
  ⟨(VLtable2environ_exported _
      (contiguous_run_calls _ emptyTable invariant_emptyTable.1)).1,
    by decide⟩

/-- C17 as stated fails when a name holds an `=`: after `VLstore("A=B", "c")` the
name `A`, never stored, is looked up as `B=c`; and after `VLstore("A", "x=y")` the
name `A=x`, never stored, is looked up as `y`. -/
theorem VLlookup_never_stored_counterexample :
    VLlookup (run_calls emptyTable [StoreCall.vlstore "A=B".toList ['c']]) ['A']
        = "B=c".toList ∧
      VLlookup (run_calls emptyTable [StoreCall.vlstore ['A'] "x=y".toList]) "A=x".toList
        = ['y'] := by
  decide

/-- C17, amended: for every table built from the empty table by a sequence of
`VLstore` and `VLexport` calls whose name arguments hold no `=`, and every name
that holds no `=` and was not the name argument of any of those calls,
`VLlookup(name)` returns the empty string. -/
theorem VLlookup_never_stored (calls : List StoreCall) (name : CStr)
    (hcalls : ∀ c ∈ calls, '=' ∉ c.name) (hname : '=' ∉ name)
    (hne : ∀ c ∈ calls, c.name ≠ name) :
    VLlookup (run_calls emptyTable calls) name = [] := by
  have h := no_match_run_calls name hname calls emptyTable hcalls hne
    (by intro k t hk; simp [emptyTable, blank] at hk)
  simp [VLlookup, find_item_none_of_no_match _ name h]

/-- C17, amended, at an instance: after `FOO=bar`, `export BAR` and `FOO=x=y`, the
name `FO` is looked up as the empty string. -/
theorem VLlookup_never_stored_witness :
    VLlookup (run_calls emptyTable
        [StoreCall.vlstore "FOO".toList "bar".toList, StoreCall.vlexport "BAR".toList,
          StoreCall.vlstore "FOO".toList "x=y".toList]) "FO".toList = [] :=
  VLlookup_never_stored _ _ (by decide) (by decide) (by decide)

/-- C18: when the table is contiguous, its entries are `name=value` strings and
their names (the text before the first `=`) are pairwise distinct, then for every
name without `=` and every value the table after `VLstore(name, value)` and the
table after `VLexport(name)` have these properties again, and the number of
occupied slots has grown by none or one. -/
theorem names_stay_distinct (tab : Table) (name value : CStr) (hname : '=' ∉ name)
    (hc : contiguous tab) (he : entries_have_eq tab) (hd : distinct_names tab) :
    (distinct_names (VLstore tab name value).2 ∧
      contiguous (VLstore tab name value).2 ∧ entries_have_eq (VLstore tab name value).2 ∧
      entry_count tab MAXVARS ≤ entry_count (VLstore tab name value).2 MAXVARS ∧
      entry_count (VLstore tab name value).2 MAXVARS ≤ entry_count tab MAXVARS + 1) ∧
    (distinct_names (VLexport tab name).2 ∧
      contiguous (VLexport tab name).2 ∧ entries_have_eq (VLexport tab name).2 ∧
      entry_count tab MAXVARS ≤ entry_count (VLexport tab name).2 MAXVARS ∧
      entry_count (VLexport tab name).2 MAXVARS ≤ entry_count tab MAXVARS + 1) := by
  have h1 := invariant_VLstore tab name value hname ⟨hc, he, hd⟩
  have h2 := invariant_VLexport tab name hname ⟨hc, he, hd⟩
  have h3 := entry_count_VLstore tab name value
  have h4 := entry_count_VLexport tab name
  exact ⟨⟨h1.2.2, h1.1, h1.2.1, h3.1, h3.2⟩, ⟨h2.2.2, h2.1, h2.2.1, h4.1, h4.2⟩⟩

set_option maxRecDepth 100000 in
/-- C18, at an instance: on the table holding `FOO=1` and `FOOD=2`, storing
`FOO=bar` keeps the names distinct and the two entries, exporting `FO` adds a
third. -/
theorem names_stay_distinct_witness :
    distinct_names (VLstore (run_calls emptyTable
        [StoreCall.vlstore "FOO".toList ['1'], StoreCall.vlstore "FOOD".toList ['2']])
        "FOO".toList "bar".toList).2 ∧
    distinct_names (VLexport (run_calls emptyTable
        [StoreCall.vlstore "FOO".toList ['1'], StoreCall.vlstore "FOOD".toList ['2']])
        "FO".toList).2 ∧
    entry_count (run_calls emptyTable
        [StoreCall.vlstore "FOO".toList ['1'], StoreCall.vlstore "FOOD".toList ['2']])
        MAXVARS = 2 ∧
    entry_count (VLstore (run_calls emptyTable
        [StoreCall.vlstore "FOO".toList ['1'], StoreCall.vlstore "FOOD".toList ['2']])
        "FOO".toList "bar".toList).2 MAXVARS = 2 ∧
    entry_count (VLexport (run_calls emptyTable
        [StoreCall.vlstore "FOO".toList ['1'], StoreCall.vlstore "FOOD".toList ['2']])
        "FO".toList).2 MAXVARS = 3 := by
  have hinv := invariant_run_calls
    [StoreCall.vlstore "FOO".toList ['1'], StoreCall.vlstore "FOOD".toList ['2']]
    emptyTable (by decide) invariant_emptyTable
  exact ⟨(names_stay_distinct _ "FOO".toList "bar".toList (by decide)
      hinv.1 hinv.2.1 hinv.2.2).1.1,
    (names_stay_distinct _ "FO".toList [] (by decide) hinv.1 hinv.2.1 hinv.2.2).2.1,
    by decide, by decide, by decide⟩

/-! ## Lemmas on `okname` -/

theorem identifier_char_eq (c : Char) :
    identifier_char c = (c.isAlphanum || c == '_') := by
  simp only [identifier_char, identifier_start, Char.isAlphanum, Char.isAlpha, Char.isUpper,
    Char.isLower, Char.isDigit, Char.le_def, ge_iff_le]
  rw [Bool.eq_iff_iff]
  simp only [Bool.or_eq_true, Bool.and_eq_true, decide_eq_true_eq, beq_iff_eq]
  constructor
  · rintro (((h | h) | h) | h)
    · exact Or.inl (Or.inl (Or.inl h))
    · exact Or.inl (Or.inl (Or.inr h))
    · exact Or.inr h
    · exact Or.inl (Or.inr h)
  · rintro (((h | h) | h) | h)
    · exact Or.inl (Or.inl (Or.inl h))
    · exact Or.inl (Or.inl (Or.inr h))
    · exact Or.inr h
    · exact Or.inl (Or.inr h)

/-- The first test of the loop of `okname` fails exactly on `[A-Za-z_]`. -/
theorem okname_first_test (c : Char) :
    ((c.isDigit && true) || !(c.isAlphanum || c == '_')) = !identifier_start c := by
  by_cases hd : c.isDigit = true
  · have hs : identifier_start c = false := by
      have h : ¬ (identifier_start c = true) := by
        intro hst
        simp only [identifier_start, Bool.or_eq_true, Bool.and_eq_true, decide_eq_true_eq,
          beq_iff_eq, Char.le_def] at hst
        simp only [Char.isDigit, Bool.and_eq_true, decide_eq_true_eq, ge_iff_le] at hd
        rcases hst with (h | h) | h
        · have h1 := h.1
          have h2 := hd.2
          have h3 : ('A' : Char).val ≤ (57 : UInt32) := UInt32.le_trans h1 h2
          revert h3; decide
        · have h1 := h.1
          have h2 := hd.2
          have h3 : ('a' : Char).val ≤ (57 : UInt32) := UInt32.le_trans h1 h2
          revert h3; decide
        · subst h; revert hd; decide
      simpa using h
    simp [hd, hs]
  · have hd : c.isDigit = false := by simpa using hd
    have hc := identifier_char_eq c
    have hs : identifier_char c = identifier_start c := by
      have hr : (decide ('0' ≤ c) && decide (c ≤ '9')) = c.isDigit := by
        simp [Char.isDigit, Char.le_def]
      simp only [identifier_char, hr, hd, Bool.or_false]
    rw [← hc, hs]
    simp [hd]

/-- The later tests of the loop of `okname` fail exactly on `[A-Za-z0-9_]`. -/
theorem okname_scan_rest (cs : CStr) : okname_scan false cs = cs.all identifier_char := by
  induction cs with
  | nil => rfl
  | cons c cs ih =>
    rw [okname_scan, ih, List.all_cons, identifier_char_eq]
    cases h : (c.isAlphanum || c == '_') <;> simp [h]

/-! ## Theorem on `okname` -/

/-- C21: for every string `s`, `okname(s)` is 1 when `s` matches
`[A-Za-z_][A-Za-z0-9_]*` (non-empty, first character a letter or underscore, every
other character a letter, digit or underscore), and 0 otherwise. -/
theorem okname_matches_identifier (s : CStr) :
    okname s = (if matches_identifier s then 1 else 0) ∧
      (okname s = 1 ↔ matches_identifier s = true) ∧
      (okname s = 0 ↔ matches_identifier s = false) := by
  have key : okname s = (if matches_identifier s then 1 else 0) := by
    cases s with
    | nil => rfl
    | cons c cs =>
      unfold okname
      rw [okname_scan, okname_first_test, okname_scan_rest, matches_identifier]
      cases h1 : identifier_start c <;> cases h2 : cs.all identifier_char <;> simp
  refine ⟨key, ?_, ?_⟩
  · rw [key]; cases matches_identifier s <;> simp
  · rw [key]; cases matches_identifier s <;> simp

/-! ## Lemmas on the positions at which the scan resumes -/

/-- After `substitute` the loop resumes (at the returned pointer plus one) inside
the rewritten line. -/
theorem substitute_resume (tab : Table) (cmdline : CStr) (k : Nat) (hk : k < cmdline.length) :
    0 ≤ (substitute tab cmdline k).2 + 1 ∧
      (substitute tab cmdline k).2 + 1 ≤ ((substitute tab cmdline k).1.length : Int) := by
  simp only [substitute, List.length_append, List.length_take, List.length_drop]
  push_cast
  omega

/-- After `escape_char` on a backslash that is not the last character the loop
resumes inside the rewritten line. -/
theorem escape_char_resume (cmdline : CStr) (k : Nat) (hk : k + 1 < cmdline.length) :
    0 ≤ (escape_char cmdline k).2 + 1 ∧
      (escape_char cmdline k).2 + 1 ≤ ((escape_char cmdline k).1.length : Int) := by
  simp only [escape_char, List.length_append, List.length_take, List.length_drop]
  push_cast
  omega

/-- After `escape_char` on a backslash that is the last character the loop
resumes one position behind the terminator of the rewritten line. -/
theorem escape_char_resume_last (cmdline : CStr) (k : Nat) (hk : k + 1 = cmdline.length) :
    (escape_char cmdline k).2 + 1 = ((escape_char cmdline k).1.length : Int) + 1 := by
  simp only [escape_char, List.length_append, List.length_take, List.length_drop]
  push_cast
  omega

/-- The loop ends by itself, and when it reads outside the buffer it does so one
position behind the terminator. -/
theorem scan_loop_outcome (tab : Table) :
    ∀ (f : Nat) (cmdline : CStr) (p : Int), 0 ≤ p → p ≤ (cmdline.length : Int) + 1 →
      0 < f → (cmdline.length : Int) - p < (f : Int) →
      (∃ l, scan_loop tab f cmdline p = Scan.done l) ∨
        (∃ l, scan_loop tab f cmdline p = Scan.overrun l ((l.length : Int) + 1)) := by
  intro f
  induction f with
  | zero => intro cmdline p _ _ hf; omega
  | succ f ih =>
    intro cmdline p hp hp2 _ hlen
    rw [scan_loop_succ]
    by_cases hov : p < 0 ∨ (cmdline.length : Int) < p
    · simp only [hov, if_true]
      have hpe : p = (cmdline.length : Int) + 1 := by omega
      exact Or.inr ⟨cmdline, by rw [hpe]⟩
    · simp only [hov, if_false]
      cases hc : cmdline[p.toNat]? with
      | none => exact Or.inl ⟨cmdline, rfl⟩
      | some c =>
        have hk : p.toNat < cmdline.length := by
          by_contra hcon
          rw [List.getElem?_eq_none (Nat.le_of_not_lt hcon)] at hc
          cases hc
        have hpk : ((p.toNat : Nat) : Int) = p := Int.toNat_of_nonneg hp
        simp only []
        by_cases hb : c = '\\'
        · simp only [hb, if_true]
          have hm := escape_char_measure cmdline p.toNat hk
          have hr : (escape_char cmdline p.toNat).2 + 1
              ≤ ((escape_char cmdline p.toNat).1.length : Int) + 1 := by
            simp only [escape_char, List.length_append, List.length_take, List.length_drop]
            push_cast
            omega
          exact ih _ _ hm.1 hr (by omega) (by omega)
        · simp only [hb, if_false]
          by_cases hd : c = '$'
          · simp only [hd, if_true]
            have hm := substitute_measure tab cmdline p.toNat hk
            have hr := substitute_resume tab cmdline p.toNat hk
            exact ih _ _ hm.1 (by omega) (by omega) (by omega)
          · simp only [hd, if_false]
            exact ih _ _ (by omega) (by omega) (by omega) (by omega)

theorem substitute_variables_lone_backslash (tab : Table) :
    substitute_variables tab ['\\'] = Scan.overrun [] 1 := rfl

/-! ## Theorem on the bounds of the scan -/

/-- C22 fails on a line that ends in a lone backslash.  The scan always ends, and
a substitution step, like an escape step on a backslash that is not the last
character, resumes at a position between 0 and the length of the rewritten line;
but after `escape_char` on a final backslash the loop resumes one position behind
the terminator and reads there: behind a prefix `p` free of `$` and backslash,
the line `p ++ backslash` is rewritten to `p` and `*substr` is read at offset
`strlen(p) + 1`.  No other read leaves the buffer: a scan either returns the
line or reads one position behind its terminator. -/
theorem scan_overruns_on_final_backslash (tab : Table) :
    (∀ p : CStr, (∀ c ∈ p, c ≠ '$' ∧ c ≠ '\\') →
      substitute_variables tab (p ++ ['\\']) = Scan.overrun p ((p.length : Int) + 1)) ∧
    (∀ (cmdline : CStr) (k : Nat), k + 1 = cmdline.length →
      (escape_char cmdline k).2 + 1 = ((escape_char cmdline k).1.length : Int) + 1) ∧
    (∀ (cmdline : CStr) (k : Nat), k + 1 < cmdline.length →
      0 ≤ (escape_char cmdline k).2 + 1 ∧
        (escape_char cmdline k).2 + 1 ≤ ((escape_char cmdline k).1.length : Int)) ∧
    (∀ (cmdline : CStr) (k : Nat), k < cmdline.length →
      0 ≤ (substitute tab cmdline k).2 + 1 ∧
        (substitute tab cmdline k).2 + 1 ≤ ((substitute tab cmdline k).1.length : Int)) ∧
    (∀ line : CStr,
      (∃ l, substitute_variables tab line = Scan.done l) ∨
        (∃ l, substitute_variables tab line = Scan.overrun l ((l.length : Int) + 1))) := by
  refine ⟨?_, escape_char_resume_last, escape_char_resume, substitute_resume tab, ?_⟩
  · intro p hp
    rw [substitute_variables_literal tab p _ hp, substitute_variables_lone_backslash]
    simp [Scan.prepend]
  · intro line
    exact scan_loop_outcome tab (line.length + 1) line 0 (le_refl _) (by omega) (by omega)
      (by push_cast; omega)

/-- C22, at the failing input: `cost: ` followed by a backslash is rewritten to
the 6 characters `cost: ` and then read at offset 7; and at the two other
instances of the claim the scan stays inside: `$FOO` with `FOO` unbound at the
start of the line, and a line that ends in `$`. -/
theorem scan_overruns_on_final_backslash_witness :
    substitute_variables emptyTable ("cost: ".toList ++ ['\\'])
        = Scan.overrun "cost: ".toList 7 ∧
      substitute_variables emptyTable "$FOO bar".toList = Scan.done " bar".toList ∧
      substitute_variables emptyTable "cost: $".toList = Scan.done "cost: $".toList :=
  ⟨(scan_overruns_on_final_backslash emptyTable).1 "cost: ".toList (by decide),
    by decide, by decide⟩

end Smsh
